import Mathlib

/-
  Verification of the consumable-resources node-selection core
  (select_cons_res.c) against its natural-language specification.

  Bitmaps (bitstr_t) are embedded as `List Bool`; a machine word index into
  the flat core address space is a `Nat`.  C `int` counters that may go
  negative are embedded as `Int`; `uint32_t` counters that the code can
  wrap are embedded as `Nat` with explicit mod-2^32 wrapping where the
  code decrements.
-/

set_option maxRecDepth 4000

/-! ## BitSet primitives (bitstr_t) -/

/-- bit_test: test bit `i`; out-of-range bits read as 0. -/
def bit_test (b : List Bool) (i : Nat) : Bool := b.getD i false

/-- bit_set: set bit `i` (no-op when out of range, sizes are fixed). -/
def bit_set (b : List Bool) (i : Nat) : List Bool := b.set i true

/-- bit_clear: clear bit `i`. -/
def bit_clear (b : List Bool) (i : Nat) : List Bool := b.set i false

/-- bit_alloc: a fresh all-zero bitmap of the given size. -/
def bit_alloc (n : Nat) : List Bool := List.replicate n false

/-- bit_set_count: popcount. -/
def bit_set_count (b : List Bool) : Nat := b.count true

/-- bit_ffs: index of the first set bit, none when the bitmap is empty
(the C function returns -1 in that case). -/
def bit_ffs : List Bool → Option Nat
  | [] => none
  | x :: xs => if x then some 0 else (bit_ffs xs).map (· + 1)

/-- bit_fls: index of the last set bit, none when the bitmap is empty. -/
def bit_fls (b : List Bool) : Option Nat :=
  (bit_ffs b.reverse).map (fun i => b.length - 1 - i)

/-- bit_not: in-place complement (within the declared size). -/
def bit_not (b : List Bool) : List Bool := b.map (fun x => !x)

/-- bit_or: in-place bitwise or of two equal-size bitmaps. -/
def bit_or (a b : List Bool) : List Bool := List.zipWith or a b

/-- bit_and: in-place bitwise and of two equal-size bitmaps. -/
def bit_and (a b : List Bool) : List Bool := List.zipWith and a b

/-- bit_and_not: clear in `a` every bit set in `b`. -/
def bit_and_not (a b : List Bool) : List Bool :=
  List.zipWith (fun x y => x && !y) a b

/-- bit_nclear: clear bits `s..e` inclusive (an empty range when `e < s`;
callers compute `e` with C int arithmetic, so it is an `Int` here). -/
def bit_nclear (b : List Bool) (s : Nat) (e : Int) : List Bool :=
  (List.range b.length).map (fun i => if s ≤ i ∧ (i : Int) ≤ e then false else bit_test b i)

/-- bit_super_set b1 b2: 1 iff every bit set in `b1` is also set in `b2`. -/
def bit_super_set (b1 b2 : List Bool) : Bool :=
  (List.range b1.length).all (fun i => !bit_test b1 i || bit_test b2 i)

/-! ## Cluster model: node inventory plus the specialized-core mask

The node inventory `cr_node_num_cores` / `cr_node_cor_offset` is process
global state set at init.  `specCores` is the cluster's specialized-core
set in global core coordinates; it parameterizes the model of
`make_core_bitmap` below. -/

structure Cluster where
  cores : List Nat
  specCores : List Bool
deriving DecidableEq

/-- cr_node_num_cores for node `n`. -/
def cr_node_num_cores (cl : Cluster) (n : Nat) : Nat := cl.cores.getD n 0

/-- cr_get_coremap_offset: global index of the first core of node `n`
(prefix sum of the per-node core counts). -/
def cr_get_coremap_offset (cl : Cluster) (n : Nat) : Nat :=
  ((cl.cores.take n).sum)

/-- Size of the flat core address space. -/
def total_cores (cl : Cluster) : Nat := cl.cores.sum

/-- Node owning global core `g` (inverse of the coremap offset). -/
def node_of_aux : List Nat → Nat → Nat
  | [], _ => 0
  | c :: cs, g => if g < c then 0 else node_of_aux cs (g - c) + 1

/-- Node owning global core `g`. -/
def node_of (cl : Cluster) (g : Nat) : Nat := node_of_aux cl.cores g

/-- Modelled from the spec: `make_core_bitmap(node_bitmap, NO_VAL16)` lives in
the plugin's job_test.c, which is not part of the given sources.  Per spec
section 4.5 it computes "the bitmap of specialized cores restricted to
`node_bitmap`": global core `g` is set iff `g` is a specialized core and the
node owning `g` is set in `node_bitmap`. -/
def make_core_bitmap (cl : Cluster) (node_bitmap : List Bool) : List Bool :=
  (List.range (total_cores cl)).map (fun g =>
    bit_test cl.specCores g && bit_test node_bitmap (node_of cl g))

/-- spec_core_filter: merge the cluster's specialized-core mask into the
in/out exclusion bitmap `core_bitmap`; the mask restricted to `node_bitmap`
is inverted and OR-ed in, and becomes the initial value when the bitmap was
null on entry.  Returns the new (always non-null) bitmap. -/
def spec_core_filter (cl : Cluster) (node_bitmap : List Bool)
    (core_bitmap : Option (List Bool)) : List Bool :=
  let spec_core_map := make_core_bitmap cl node_bitmap
  let inverted := bit_not spec_core_map
  match core_bitmap with
  | some cb => bit_or cb inverted
  | none => inverted

/-- get_avail_core_in_node: count the cores of `node` that are not set in
the exclusion bitmap; if the count is below `cores_per_node`, clear all of
that node's bits and report 0.  A null bitmap reports the node's total core
count.  Returns the count together with the (possibly modified) bitmap. -/
def get_avail_core_in_node (cl : Cluster) (core_bitmap : Option (List Bool))
    (node : Nat) (cores_per_node : Nat) : Nat × Option (List Bool) :=
  let coff := cr_get_coremap_offset cl node
  let tc := cr_node_num_cores cl node
  match core_bitmap with
  | none => (tc, none)
  | some cb =>
    let avail := (List.range tc).countP (fun i => !bit_test cb (coff + i))
    if avail ≥ cores_per_node then (avail, some cb)
    else (0, some (bit_nclear cb coff ((coff : Int) + tc - 1)))

/-! ## JobResources and the repack sort comparator -/

structure job_resources where
  node_bitmap : List Bool
  core_bitmap : List Bool
  ncpus : Nat
deriving DecidableEq

structure sort_support where
  jstart : Nat
  tmpjobs : job_resources
deriving DecidableEq

/-- compare_support: the qsort comparator of the repacker; returns 1 when
`s` orders strictly after `s1` in the (jstart, ncpus) lexicographic order
and 0 otherwise (the source has no strictly-less branch). -/
def compare_support (s s1 : sort_support) : Nat :=
  if s.jstart > s1.jstart
      ∨ (s.jstart = s1.jstart ∧ s.tmpjobs.ncpus > s1.tmpjobs.ncpus)
  then 1 else 0

/-- Lexicographic order on (jstart, ncpus) used by the spec's sort step. -/
def support_le (a b : sort_support) : Prop :=
  a.jstart < b.jstart ∨ (a.jstart = b.jstart ∧ a.tmpjobs.ncpus ≤ b.tmpjobs.ncpus)

instance (a b : sort_support) : Decidable (support_le a b) := by
  unfold support_le; infer_instance

/-- Modelled from the spec: libc `qsort` is not part of the sources; it is
modelled as a comparison sort that places `a` no later than `x` exactly when
the comparator does not order `a` after `x` (returns 0).  Insertion step. -/
def qsort_insert (a : sort_support) : List sort_support → List sort_support
  | [] => [a]
  | x :: xs => if compare_support a x = 0 then a :: x :: xs
               else x :: qsort_insert a xs

/-- Modelled from the spec: the full comparison sort over `compare_support`. -/
def qsort_support (l : List sort_support) : List sort_support :=
  l.foldr qsort_insert []

/-- Full-node loop: repeatedly take `find_first_set(avail)`, clear it,
and remember it; `node_cnt` iterations at most.  Returns the picked nodes
in order together with the final avail bitmap. -/
def seq_full_loop : List Bool → Nat → List Nat × List Bool
  | avail, 0 => ([], avail)
  | avail, n+1 =>
    match bit_ffs avail with
    | none => ([], avail)
    | some inx =>
      let r := seq_full_loop (bit_clear avail inx) n
      (inx :: r.1, r.2)

/-- Ascending list of the set-bit indices of a bitmap. -/
def set_bits : List Bool → List Nat
  | [] => []
  | x :: xs => (if x then [0] else []) ++ (set_bits xs).map (· + 1)

/-- uint32_t decrement with wraparound (extra_cores_needed is uint32_t). -/
def dec_u32 (x : Nat) : Nat := if x = 0 then 2^32 - 1 else x - 1

/-- Inner core-taking loop of the within-node regime: scan the node's
`rem` remaining local cores starting at local index `i`; each free core
(set in `tmpcore`) is copied into the output bitmap, decrementing `total`
and, past the `cpn`-th core of the node, `extra`; stop at the node end, at
`total = 0`, or once `extra = 0` with at least `cpn` cores taken.
Returns (core_bitmap, total, extra, cores_in_node). -/
def take_cores (tmpcore : List Bool) (coff cpn : Nat) :
    Nat → Nat → List Bool → Nat → Nat → Nat → (List Bool × Nat × Nat × Nat)
  | 0, _, cb, total, extra, cin => (cb, total, extra, cin)
  | rem+1, i, cb, total, extra, cin =>
    if bit_test tmpcore (coff + i) then
      let cb' := bit_set cb (coff + i)
      let total' := total - 1
      let cin' := cin + 1
      let extra' := if cin' > cpn then dec_u32 extra else extra
      if total' = 0 ∨ (extra' = 0 ∧ cin' ≥ cpn) then (cb', total', extra', cin')
      else take_cores tmpcore coff cpn rem (i+1) cb' total' extra' cin'
    else take_cores tmpcore coff cpn rem (i+1) cb total extra cin

structure seq_part_state where
  total : Nat
  avail : List Bool
  core_bitmap : List Bool
  sp : List Bool
  node_list_inx : Nat
  extra : Nat
  examined : List Nat
deriving DecidableEq

/-- One iteration of the within-node loop of _sequential_pick: none when the
loop stops (total reached 0, zero list entry, or avail empty); otherwise the
state after processing the first set node of avail. -/
def seq_part_step (cl : Cluster) (node_cnt : Nat) (core_cnt : List Nat)
    (tmpcore : List Bool) (cpn0 : Nat) (st : seq_part_state) :
    Option seq_part_state :=
  if st.total = 0 then none else
  let cpn := if node_cnt = 0 then core_cnt.getD st.node_list_inx 0 else cpn0
  if node_cnt = 0 ∧ cpn = 0 then none else
  match bit_ffs st.avail with
  | none => none
  | some inx =>
    let coff := cr_get_coremap_offset cl inx
    let local_cores := cr_get_coremap_offset cl (inx + 1) - coff
    let avail' := bit_clear st.avail inx
    let ex' := st.examined ++ [inx]
    if local_cores < cpn then
      some { st with avail := avail', examined := ex' }
    else
    let cin0 := (List.range local_cores).countP (fun i => bit_test tmpcore (coff + i))
    if cin0 < cpn then
      some { st with avail := avail', examined := ex' }
    else
      let r := take_cores tmpcore coff cpn local_cores 0 st.core_bitmap st.total st.extra 0
      let sp' := if r.2.2.2 ≠ 0 then bit_set st.sp inx else st.sp
      some { total := r.2.1, avail := avail', core_bitmap := r.1, sp := sp',
             node_list_inx := st.node_list_inx + 1, extra := r.2.2.1, examined := ex' }

/-- Within-node regime loop of _sequential_pick.  Each iteration pulls the
first set node out of `avail`; fuel bounds the iteration count (the caller
passes popcount(avail) + 1, which the loop can never exhaust since every
iteration clears one set bit). -/
def seq_part_loop (cl : Cluster) (node_cnt : Nat) (core_cnt : List Nat)
    (tmpcore : List Bool) (cpn0 : Nat) : Nat → seq_part_state → seq_part_state
  | 0, st => st
  | fuel+1, st =>
    match seq_part_step cl node_cnt core_cnt tmpcore cpn0 st with
    | none => st
    | some st2 => seq_part_loop cl node_cnt core_cnt tmpcore cpn0 fuel st2

/-- Total requested core count of the within-node regime. -/
def seq_part_total0 (avail : List Bool) (node_cnt : Nat) (l : List Nat) : Nat :=
  if node_cnt ≠ 0 then l.getD 0 0
  else (((List.range (bit_set_count avail)).map (fun i => l.getD i 0)).takeWhile
          (· ≠ 0)).sum

/-- cores_per_node of the within-node regime (0 when driven by the list). -/
def seq_part_cpn0 (node_cnt : Nat) (l : List Nat) : Nat :=
  if node_cnt ≠ 0 then l.getD 0 0 / max node_cnt 1 else 0

/-- extra_cores_needed of the within-node regime. -/
def seq_part_extra0 (node_cnt : Nat) (l : List Nat) : Nat :=
  if node_cnt ≠ 0 then l.getD 0 0 - (seq_part_cpn0 node_cnt l) * node_cnt else 0

/-- Final loop state of the within-node regime of _sequential_pick. -/
def seq_part_final (cl : Cluster) (avail : List Bool) (node_cnt : Nat)
    (l : List Nat) (core_bitmap : Option (List Bool)) : seq_part_state :=
  let cb0 := spec_core_filter cl avail core_bitmap
  let tmpcore := bit_not cb0
  let cb1 := bit_and cb0 tmpcore
  seq_part_loop cl node_cnt l tmpcore (seq_part_cpn0 node_cnt l)
    (bit_set_count avail + 1)
    { total := seq_part_total0 avail node_cnt l, avail := avail,
      core_bitmap := cb1, sp := bit_alloc avail.length,
      node_list_inx := 0, extra := seq_part_extra0 node_cnt l, examined := [] }

structure seq_result where
  res : Option (List Bool)
  avail : List Bool
  core_bitmap : Option (List Bool)
  examined : List Nat
deriving DecidableEq

/-- _sequential_pick: both regimes; returns the picked node bitmap (null on
failure), the mutated avail bitmap, the in/out core bitmap, and the ghost
list of nodes cleared from avail. -/
def sequential_pick (cl : Cluster) (avail : List Bool) (node_cnt : Nat)
    (core_cnt : Option (List Nat)) (core_bitmap : Option (List Bool)) : seq_result :=
  match core_cnt with
  | some l =>
    let st := seq_part_final cl avail node_cnt l core_bitmap
    if st.total ≠ 0 then
      { res := none, avail := st.avail, core_bitmap := some st.core_bitmap,
        examined := st.examined }
    else
      { res := some st.sp, avail := st.avail, core_bitmap := some st.core_bitmap,
        examined := st.examined }
  | none =>
    let r := seq_full_loop avail node_cnt
    let sp := r.1.foldl bit_set (bit_alloc avail.length)
    if r.1.length = node_cnt then
      { res := some sp, avail := r.2, core_bitmap := core_bitmap, examined := r.1 }
    else
      { res := none, avail := r.2, core_bitmap := core_bitmap, examined := r.1 }

/-! ## _pick_first_cores -/

structure pfc_state where
  tmpcore : List Bool
  core_bitmap : List Bool
  sp : List Bool
  avail : List Bool
  node_offset : Nat
  examined : List Nat
deriving DecidableEq

/-- Inner scan of _pick_first_cores: take the first `k` local cores of the
node while each is free in tmpcore, copying them into the output bitmap;
stops at the first busy core.  Returns (cores taken, new bitmap). -/
def pfc_take (tmpcore : List Bool) (coff : Nat) :
    Nat → Nat → List Bool → (Nat × List Bool)
  | 0, jnx, cb => (jnx, cb)
  | k+1, jnx, cb =>
    if bit_test tmpcore (coff + jnx) then
      pfc_take tmpcore coff k (jnx+1) (bit_set cb (coff + jnx))
    else (jnx, cb)

/-- Clear local cores cnt..local0-1 of the node from tmpcore. -/
def pfc_clear_tail (tmpcore : List Bool) (coff cnt local0 : Nat) : List Bool :=
  (List.range (local0 - cnt)).foldl (fun t k => bit_clear t (coff + cnt + k)) tmpcore

/-- Node loop of _pick_first_cores over the index interval first..last;
every visited node is cleared from avail (and recorded in examined);
a node is selected only when its first core_cnt[node_offset] cores are all
free, and the loop stops once the next core_cnt entry is zero. -/
def pick_first_loop (cl : Cluster) (core_cnt : List Nat) :
    List Nat → pfc_state → pfc_state
  | [], st => st
  | inx :: rest, st =>
    let coff := cr_get_coremap_offset cl inx
    let coff2 := cr_get_coremap_offset cl (inx + 1)
    let local0 := coff2 - coff
    let avail' := bit_clear st.avail inx
    let ex' := st.examined ++ [inx]
    let cnt := core_cnt.getD st.node_offset 0
    let lc := if local0 < cnt then 0 else cnt
    let r := pfc_take st.tmpcore coff lc 0 st.core_bitmap
    if r.1 < cnt then
      pick_first_loop cl core_cnt rest
        { st with core_bitmap := r.2, avail := avail', examined := ex' }
    else
      let tmp' := pfc_clear_tail st.tmpcore coff cnt local0
      let sp' := bit_set st.sp inx
      if core_cnt.getD (st.node_offset + 1) 0 = 0 then
        { tmpcore := tmp', core_bitmap := r.2, sp := sp', avail := avail',
          node_offset := st.node_offset + 1, examined := ex' }
      else
        pick_first_loop cl core_cnt rest
          { tmpcore := tmp', core_bitmap := r.2, sp := sp', avail := avail',
            node_offset := st.node_offset + 1, examined := ex' }

/-- Final loop state of _pick_first_cores (after the early-exit checks). -/
def pick_first_final (cl : Cluster) (avail : List Bool) (l : List Nat)
    (core_bitmap : Option (List Bool)) : pfc_state :=
  let cb0 := spec_core_filter cl avail core_bitmap
  let tmpcore := bit_not cb0
  let cb1 := bit_and cb0 tmpcore
  let idxs := match bit_ffs avail, bit_fls avail with
    | some f, some e => List.range' f (e + 1 - f)
    | _, _ => []
  pick_first_loop cl l idxs
    { tmpcore := tmpcore, core_bitmap := cb1, sp := bit_alloc avail.length,
      avail := avail, node_offset := 0, examined := [] }

/-- _pick_first_cores: reservation picker for the first-N-cores mode. -/
def pick_first_cores (cl : Cluster) (avail : List Bool) (node_cnt : Nat)
    (core_cnt : Option (List Nat)) (core_bitmap : Option (List Bool)) : seq_result :=
  match core_cnt with
  | none => { res := none, avail := avail, core_bitmap := core_bitmap, examined := [] }
  | some l =>
    if l.getD 0 0 = 0 then
      { res := none, avail := avail, core_bitmap := core_bitmap, examined := [] }
    else
      let st := pick_first_final cl avail l core_bitmap
      if l.getD st.node_offset 0 ≠ 0 then
        { res := none, avail := st.avail, core_bitmap := some st.core_bitmap,
          examined := st.examined }
      else
        { res := some st.sp, avail := st.avail, core_bitmap := some st.core_bitmap,
          examined := st.examined }

/-- Job-space offset of node `n` inside a job's own contiguous core space:
total cores of the selected nodes before `n`. -/
def job_core_off (cl : Cluster) (nb : List Bool) (n : Nat) : Nat :=
  ((List.range n).map (fun m => if bit_test nb m then cr_node_num_cores cl m else 0)).sum

/-- Modelled from the spec: projection of a job's own core bitmap into
global core coordinates (spec section 3, JobResources), bit by bit.
Global core `g` is held by the job iff `g`'s node is in the job's node
bitmap and the corresponding job-space bit is set. -/
def job_proj_bit (cl : Cluster) (job : job_resources) (g : Nat) : Bool :=
  bit_test job.node_bitmap (node_of cl g) &&
  bit_test job.core_bitmap
    (job_core_off cl job.node_bitmap (node_of cl g)
      + (g - cr_get_coremap_offset cl (node_of cl g)))

/-- The job's projection as a global bitmap. -/
def job_proj (cl : Cluster) (job : job_resources) : List Bool :=
  (List.range (total_cores cl)).map (job_proj_bit cl job)

/-- Modelled from the spec: add_job_to_cores ORs the job's projected cores
into a global bitmap (spec section 4.3, add_job_to_row). -/
def add_job_to_cores (cl : Cluster) (job : job_resources) (bm : List Bool) : List Bool :=
  bit_or bm (job_proj cl job)

/-- Modelled from the spec: remove_job_from_cores clears each global core
the job occupies (spec section 4.3). -/
def remove_job_from_cores (cl : Cluster) (job : job_resources) (bm : List Bool) : List Bool :=
  bit_and_not bm (job_proj cl job)

/-- Modelled from the spec: job_fits_into_cores is true iff the job's
projection does not intersect the row bitmap (spec section 4.3). -/
def job_fits_into_cores (cl : Cluster) (job : job_resources) (bm : List Bool) : Bool :=
  (List.range (total_cores cl)).all (fun g => !(job_proj_bit cl job g && bit_test bm g))

structure part_row_data where
  job_list : List job_resources
  row_bitmap : List Bool
deriving DecidableEq

/-- can_job_fit_in_row: trivially true for an empty row, else a core
disjointness test against the row bitmap. -/
def can_job_fit_in_row (cl : Cluster) (job : job_resources) (r : part_row_data) : Bool :=
  if r.job_list.length = 0 then true
  else job_fits_into_cores cl job r.row_bitmap

/-- Modelled from the spec: add_job_to_row appends the job to the row and
ORs its cores into the row bitmap (spec section 4.3). -/
def common_add_job_to_row (cl : Cluster) (job : job_resources) (r : part_row_data) :
    part_row_data :=
  { job_list := r.job_list ++ [job],
    row_bitmap := add_job_to_cores cl job r.row_bitmap }

/-- Stable insertion used by the modelled sort_part_rows. -/
def row_insert (r : part_row_data) : List part_row_data → List part_row_data
  | [] => [r]
  | x :: xs =>
    if bit_set_count x.row_bitmap ≤ bit_set_count r.row_bitmap then r :: x :: xs
    else x :: row_insert r xs

/-- Modelled from the spec: sort_part_rows stable-sorts rows by descending
popcount of the row bitmap, ties broken by row index (spec section 4.3). -/
def common_sort_part_rows (rows : List part_row_data) : List part_row_data :=
  rows.foldr row_insert []

/-- All-zero bitmap of the same size (bit_nclear over the whole range). -/
def clear_bitmap (b : List Bool) : List Bool := b.map (fun _ => false)

/-- jstart of a job: coremap offset of its first node plus the first set
bit of its job-space core bitmap. -/
def jstart_of (cl : Cluster) (job : job_resources) : Nat :=
  cr_get_coremap_offset cl ((bit_ffs job.node_bitmap).getD 0)
    + (bit_ffs job.core_bitmap).getD 0

/-- The master job list of the repacker, in row-major order. -/
def collect_ss (cl : Cluster) (rows : List part_row_data) : List sort_support :=
  rows.flatMap (fun r => r.job_list.map (fun j => ⟨jstart_of cl j, j⟩))

/-- Rows with all job references detached and bitmaps cleared. -/
def clear_rows (rows : List part_row_data) : List part_row_data :=
  rows.map (fun r => { job_list := [], row_bitmap := clear_bitmap r.row_bitmap })

/-- First-fit placement of one job: add it to the first row it fits into;
flag reports whether it was placed. -/
def place_one (cl : Cluster) (job : job_resources) :
    List part_row_data → (List part_row_data × Bool)
  | [] => ([], false)
  | r :: rs =>
    if can_job_fit_in_row cl job r then (common_add_job_to_row cl job r :: rs, true)
    else
      let p := place_one cl job rs
      (r :: p.1, p.2)

/-- Placement loop of the repacker: place each job of the sorted master
list first-fit, re-sorting the rows after every job; returns the final
rows and the dangling (unplaced) jobs. -/
def place_all (cl : Cluster) :
    List sort_support → List part_row_data → (List part_row_data × List job_resources)
  | [], rows => (rows, [])
  | s :: rest, rows =>
    let p := place_one cl s.tmpjobs rows
    let rows2 := common_sort_part_rows p.1
    let q := place_all cl rest rows2
    (q.1, if p.2 then q.2 else s.tmpjobs :: q.2)

/-- Whether the repack attempt leaves a dangling job. -/
def repack_dangling (cl : Cluster) (p : List part_row_data) : Bool :=
  !(place_all cl (qsort_support (collect_ss cl p)) (clear_rows p)).2.isEmpty

/-- Restore step: clear the row bitmap and OR each of the row's jobs back. -/
def rebuild_row (cl : Cluster) (r : part_row_data) : part_row_data :=
  { r with row_bitmap :=
      r.job_list.foldl (fun bm j0 => add_job_to_cores cl j0 bm) (clear_bitmap r.row_bitmap) }

/-- _build_row_bitmaps: single-row fast paths, empty-partition clear, and
the multi-row repack with restore-on-dangling. -/
def build_row_bitmaps (cl : Cluster) (p : List part_row_data)
    (j : Option job_resources) : List part_row_data :=
  match p with
  | [] => []
  | [r] =>
    if r.job_list.length = 0 then [{ r with row_bitmap := clear_bitmap r.row_bitmap }]
    else match j with
      | some job => [{ r with row_bitmap := remove_job_from_cores cl job r.row_bitmap }]
      | none => [rebuild_row cl r]
  | _ =>
    if (p.map (fun r => r.job_list.length)).sum = 0 then
      p.map (fun r => { r with row_bitmap := clear_bitmap r.row_bitmap })
    else if repack_dangling cl p then
      p.map (rebuild_row cl)
    else
      (place_all cl (qsort_support (collect_ss cl p)) (clear_rows p)).1

/-- Cluster of the C1 witness: a single 1-core node. -/
def c1_cl : Cluster := ⟨[1], []⟩

/-- A one-core job on node 0. -/
def c1_job : job_resources := ⟨[true], [true], 1⟩

/-- C1 witness partition: three conflicting one-core jobs in two rows. -/
def c1_p : List part_row_data := [⟨[c1_job, c1_job], [true]⟩, ⟨[c1_job], [true]⟩]

/-! ## TopologyPicker (select_p_resv_test) -/

structure switch_record where
  level : Nat
  node_bitmap : List Bool
deriving DecidableEq

/-- Per-switch scratch state: switches_bitmap / switches_node_cnt /
switches_cpu_cnt (C ints). -/
structure sw_ent where
  level : Nat
  bmap : List Bool
  ncnt : Int
  ccnt : Int
deriving DecidableEq

def sw_get (sws : List sw_ent) (j : Nat) : sw_ent := sws.getD j ⟨0, [], 0, 0⟩

/-- _make_core_bitmap_filtered with filter=1: all cores of the set nodes. -/
def make_core_bitmap_filtered (cl : Cluster) (node_map : List Bool) : List Bool :=
  (List.range cl.cores.length).flatMap (fun n =>
    List.replicate (cr_node_num_cores cl n) (bit_test node_map n))

/-- Switch array construction: availability-restricted node bitmap, its
popcount, and the popcount of its cores minus the exclusion bitmap. -/
def topo_sw_init (cl : Cluster) (switches : List switch_record)
    (avail : List Bool) (cb : Option (List Bool)) : List sw_ent :=
  switches.map (fun sw =>
    let b := bit_and sw.node_bitmap avail
    let cbm := make_core_bitmap_filtered cl b
    let cbm2 := match cb with | some x => bit_and_not cbm x | none => cbm
    ⟨sw.level, b, (bit_set_count b : Int), (bit_set_count cbm2 : Int)⟩)

/-- Remove node `i` from every switch still holding it (bitmap, node count,
cpu count). -/
def prune_node_all (i : Nat) (c : Nat) (sws : List sw_ent) : List sw_ent :=
  sws.map (fun e =>
    if bit_test e.bmap i then
      { e with bmap := bit_clear e.bmap i, ncnt := e.ncnt - 1, ccnt := e.ccnt - (c : Int) }
    else e)

/-- One node of the insufficient-cores pruning pass (step 5). -/
def prune_step (cl : Cluster) (aggr : Bool) (core_cnt : List Nat) (cpn : Nat)
    (j i : Nat) (sws : List sw_ent) (cb : List Bool) (n : Nat) :
    List sw_ent × List Bool × Nat :=
  if bit_test (sw_get sws j).bmap i = false then (sws, cb, n) else
  let r := get_avail_core_in_node cl (some cb) i cpn
  let c := r.1
  let cb2 := r.2.getD cb
  if aggr then
    if c < cpn then (prune_node_all i c sws, cb2, n) else (sws, cb2, n)
  else
    if c < core_cnt.getD n 0 then (prune_node_all i c sws, cb2, n)
    else if core_cnt.getD n 0 ≠ 0 then (sws, cb2, n + 1)
    else (sws, cb2, n)

/-- Pruning pass over one switch (nodes first..last of its bitmap at pass
entry). -/
def prune_switch (cl : Cluster) (aggr : Bool) (core_cnt : List Nat) (cpn : Nat)
    (j : Nat) (st : List sw_ent × List Bool × Nat) : List sw_ent × List Bool × Nat :=
  let idxs := match bit_ffs (sw_get st.1 j).bmap, bit_fls (sw_get st.1 j).bmap with
    | some f, some e => List.range' f (e + 1 - f)
    | _, _ => []
  idxs.foldl (fun acc i => prune_step cl aggr core_cnt cpn j i acc.1 acc.2.1 acc.2.2) st

/-- Full pruning pass (step 5) over all switches. -/
def topo_prune (cl : Cluster) (aggr : Bool) (core_cnt : List Nat) (cpn : Nat)
    (count : Nat) (sws : List sw_ent) (cb : List Bool) :
    List sw_ent × List Bool × Nat :=
  (List.range count).foldl (fun acc j => prune_switch cl aggr core_cnt cpn j acc)
    (sws, cb, 0)

/-- Best-fit switch choice (step 6): lowest level among those covering the
remaining nodes (and cores, when requested); ties on smaller node count. -/
def topo_best_fit (sws : List sw_ent) (rem_nodes rem_cores : Int) (hasCC : Bool) :
    Option Nat :=
  (List.range sws.length).foldl (fun best j =>
    if (sw_get sws j).ncnt < rem_nodes ∨ (hasCC ∧ (sw_get sws j).ccnt < rem_cores) then
      best
    else match best with
      | none => some j
      | some b =>
        if (sw_get sws j).level < (sw_get sws b).level ∨
            ((sw_get sws j).level = (sw_get sws b).level ∧
              (sw_get sws j).ncnt < (sw_get sws b).ncnt)
        then some j else best) none

/-- Leaf restriction (step 7): zero the node count of every switch that is
not a level-0 leaf contained in the chosen switch. -/
def leaf_restrict (sws : List sw_ent) (bfi : Nat) : List sw_ent :=
  sws.map (fun e =>
    if e.level ≠ 0 ∨ bit_super_set e.bmap (sw_get sws bfi).bmap = false then
      { e with ncnt := 0 }
    else e)

/-- Best-leaf choice of the descent loop: prefer sufficient leaves, among
sufficient the smallest node count, among insufficient the largest. -/
def pick_best_leaf (sws : List sw_ent) (rn rc : Int) (hasCC : Bool) : Option Nat :=
  let r := (List.range sws.length).foldl (fun (acc : Int × Nat × Bool) j =>
    let e := sw_get sws j
    if e.ncnt = 0 then acc else
    let suff : Bool := if hasCC then decide (e.ncnt ≥ rn) && decide (e.ccnt ≥ rc)
                       else decide (e.ncnt ≥ rn)
    if acc.1 = 0 ∨ (suff = true ∧ acc.2.2 = false) ∨ (suff = true ∧ e.ncnt < acc.1)
        ∨ (suff = false ∧ e.ncnt > acc.1)
    then (e.ncnt, j, suff)
    else acc) ((0 : Int), 0, false)
  if r.1 = 0 then none else some r.2.1

/-- Node scan inside the chosen leaf (step 8 body). -/
def descend_nodes (cl : Cluster) (cbOpt : Option (List Bool)) (cpn : Nat) :
    List Nat → List Bool → Int → List Bool → Int → Int
    → List Bool × Int × List Bool × Int × Int
  | [], bm, nc, res, rn, rc => (bm, nc, res, rn, rc)
  | i :: rest, bm, nc, res, rn, rc =>
    if bit_test bm i = false then descend_nodes cl cbOpt cpn rest bm nc res rn rc else
    let bm2 := bit_clear bm i
    let nc2 := nc - 1
    if bit_test res i = true then descend_nodes cl cbOpt cpn rest bm2 nc2 res rn rc else
    let acin : Int := match cbOpt with
      | some cb => ((List.range (cr_node_num_cores cl i)).countP
          (fun j0 => !bit_test cb (cr_get_coremap_offset cl i + j0)) : Int)
      | none => 0
    if (match cbOpt with | some _ => decide (acin < (cpn : Int)) | none => false) = true then
      descend_nodes cl cbOpt cpn rest bm2 nc2 res rn rc
    else
      let res2 := bit_set res i
      let rc2 := rc - acin
      let rn2 := rn - 1
      if rn2 ≤ 0 then (bm2, nc2, res2, rn2, rc2)
      else descend_nodes cl cbOpt cpn rest bm2 nc2 res2 rn2 rc2

/-- Leaf descent loop (step 8): repeatedly pick the best leaf and take its
nodes; each iteration zeroes the chosen leaf's node count, so switch-count
fuel suffices. -/
def descent_loop (cl : Cluster) (cbOpt : Option (List Bool)) (hasCC : Bool)
    (cpn : Nat) : Nat → List sw_ent → List Bool → Int → Int
    → List sw_ent × List Bool × Int × Int
  | 0, sws, res, rn, rc => (sws, res, rn, rc)
  | fuel+1, sws, res, rn, rc =>
    if rn ≤ 0 then (sws, res, rn, rc) else
    match pick_best_leaf sws rn rc hasCC with
    | none => (sws, res, rn, rc)
    | some bfl =>
      let e := sw_get sws bfl
      let idxs := match bit_ffs e.bmap, bit_fls e.bmap with
        | some f, some last => List.range' f (last + 1 - f)
        | _, _ => []
      let d := descend_nodes cl cbOpt cpn idxs e.bmap e.ncnt res rn rc
      let sws2 := sws.set bfl { e with bmap := d.1, ncnt := 0 }
      descent_loop cl cbOpt hasCC cpn fuel sws2 d.2.2.1 d.2.2.2.1 d.2.2.2.2

/-- Core-taking scan of the final partial-node pass (step 9 inner loop). -/
def fini_take (cl : Cluster) (inx : Nat) (aggr : Bool) (cpnc quota : Nat) :
    Nat → Nat → List Bool → List Bool → Nat → Nat → List Bool × List Bool × Nat
  | 0, _, cb, exc, rem, _ => (cb, exc, rem)
  | k+1, i, cb, exc, rem, acin =>
    let coff := cr_get_coremap_offset cl inx
    let free := !bit_test exc (coff + i)
    let cb2 := if free then bit_set cb (coff + i) else cb
    let exc2 := if free then bit_set exc (coff + i) else exc
    let rem2 := if free then rem - 1 else rem
    let acin2 := if free then acin + 1 else acin
    if rem2 = 0 ∨ (aggr ∧ acin2 ≥ cpnc) ∨ (¬ aggr ∧ acin2 ≥ quota) then (cb2, exc2, rem2)
    else fini_take cl inx aggr cpnc quota k (i+1) cb2 exc2 rem2 acin2

/-- Final core-selection loop over the chosen nodes (step 9), including the
aggregate-mode second pass that ORs the result back into the scan bitmap.
Returns (sp node bitmap, output core bitmap, remaining cores). -/
def fini_core_loop (cl : Cluster) (l : List Nat) (aggr : Bool) :
    Nat → List Bool → List Bool → List Bool → List Bool → Nat → Nat → Nat → Int
    → List Bool × List Bool × Nat
  | 0, _, sp, cb, _, rem, _, _, _ => (sp, cb, rem)
  | fuel+1, avail, sp, cb, exc, rem, cpn, n, prev =>
    if rem = 0 then (sp, cb, rem) else
    let sel : Option Nat × List Bool × Int × Nat :=
      match bit_ffs avail with
      | some i => (some i, avail, prev, cpn)
      | none =>
        if aggr ∧ 0 < rem ∧ (rem : Int) ≠ prev then
          let a2 := bit_or avail sp
          (bit_ffs a2, a2, (rem : Int), 1)
        else (none, avail, prev, cpn)
    match sel.1 with
    | none => (sp, cb, rem)
    | some inx =>
      let avail2 := bit_clear sel.2.1 inx
      if cr_node_num_cores cl inx < sel.2.2.2 then
        fini_core_loop cl l aggr fuel avail2 sp cb exc rem sel.2.2.2 n sel.2.2.1
      else
      let acin := (List.range (cr_node_num_cores cl inx)).countP
        (fun i => !bit_test exc (cr_get_coremap_offset cl inx + i))
      if acin < sel.2.2.2 then
        fini_core_loop cl l aggr fuel avail2 sp cb exc rem sel.2.2.2 n sel.2.2.1
      else
        let t := fini_take cl inx aggr sel.2.2.2 (l.getD n 0)
          (cr_node_num_cores cl inx) 0 cb exc rem 0
        fini_core_loop cl l aggr fuel avail2 (bit_set sp inx) t.1 t.2.1 t.2.2
          sel.2.2.2 (n+1) sel.2.2.1

/-- Filtered in/out core bitmap at topology entry (step 2). -/
def topo_cb1 (cl : Cluster) (core_cnt : Option (List Nat)) (avail : List Bool)
    (core_bitmap : Option (List Bool)) : Option (List Bool) :=
  match core_cnt with
  | some _ => some (spec_core_filter cl avail core_bitmap)
  | none => core_bitmap

/-- Request parameters (step 3): (rem_cores, cores_per_node, aggregate). -/
def topo_params (cl : Cluster) (node_cnt : Nat) (core_cnt : Option (List Nat)) :
    Int × Nat × Bool :=
  match core_cnt with
  | some lc =>
    if lc.getD 1 0 ≠ 0 then
      let pre := lc.takeWhile (· ≠ 0)
      ((pre.sum : Int), (match pre with | [] => 1 | h :: t => t.foldl Nat.min h), false)
    else ((lc.getD 0 0 : Int), lc.getD 0 0 / max node_cnt 1, true)
  | none => (0, (match cl.cores with | [] => 1 | c :: _ => c), false)

/-- Switch state and exclusion bitmap after construction and pruning
(steps 4 and 5). -/
def topo_prune_res (cl : Cluster) (switches : List switch_record) (node_cnt : Nat)
    (core_cnt : Option (List Nat)) (avail : List Bool)
    (core_bitmap : Option (List Bool)) : List sw_ent × Option (List Bool) :=
  let cb1 := topo_cb1 cl core_cnt avail core_bitmap
  let sws0 := topo_sw_init cl switches avail cb1
  match core_cnt with
  | some lc =>
    let pr := topo_prune cl (topo_params cl node_cnt (some lc)).2.2 lc
      (topo_params cl node_cnt (some lc)).2.1 switches.length sws0
      (spec_core_filter cl avail core_bitmap)
    (pr.1, some pr.2.1)
  | none => (sws0, cb1)

/-- The best-fit switch of step 6 on the pruned switch state. -/
def topo_best_inx (cl : Cluster) (switches : List switch_record) (node_cnt : Nat)
    (core_cnt : Option (List Nat)) (avail : List Bool)
    (core_bitmap : Option (List Bool)) : Option Nat :=
  topo_best_fit (topo_prune_res cl switches node_cnt core_cnt avail core_bitmap).1
    (node_cnt : Int) (topo_params cl node_cnt core_cnt).1 core_cnt.isSome

/-- Topology path of select_p_resv_test (steps 1-9). -/
def topo_resv_test (cl : Cluster) (switches : List switch_record) (node_cnt : Nat)
    (core_cnt : Option (List Nat)) (avail : List Bool)
    (core_bitmap : Option (List Bool)) : Option (List Bool) :=
  if bit_set_count avail < node_cnt then none else
  let prms := topo_params cl node_cnt core_cnt
  let pr := topo_prune_res cl switches node_cnt core_cnt avail core_bitmap
  match topo_best_inx cl switches node_cnt core_cnt avail core_bitmap with
  | none => none
  | some bfi =>
    let sws2 := leaf_restrict pr.1 bfi
    let d := descent_loop cl pr.2 core_cnt.isSome prms.2.1 (switches.length + 1)
      sws2 (bit_alloc avail.length) (node_cnt : Int) prms.1
    if 0 < d.2.2.1 ∨ 0 < d.2.2.2 then none
    else match core_cnt with
      | none => some d.2.1
      | some lc =>
        let exc := pr.2.getD (bit_alloc (total_cores cl))
        let f := fini_core_loop cl lc prms.2.2
          ((prms.1.toNat + 2) * (avail.length + cl.cores.length + 2) + 2)
          d.2.1 (bit_alloc avail.length) (bit_alloc exc.length) exc
          prms.1.toNat prms.2.1 0 (-1)
        if f.2.2 ≠ 0 then none else some f.1

/-- select_p_resv_test dispatcher: first-cores mode, the no-topology /
no-node-count sequential path, then the topology path. -/
def select_p_resv_test (cl : Cluster) (switches : List switch_record)
    (first_cores_flag : Bool) (node_cnt : Nat) (core_cnt : Option (List Nat))
    (avail : List Bool) (core_bitmap : Option (List Bool)) : Option (List Bool) :=
  if first_cores_flag ∧ core_cnt.isSome then
    (pick_first_cores cl avail node_cnt core_cnt core_bitmap).res
  else if switches.length = 0 ∨ node_cnt = 0 then
    (sequential_pick cl avail node_cnt core_cnt core_bitmap).res
  else topo_resv_test cl switches node_cnt core_cnt avail core_bitmap

/-! ### BitSet lemmas -/

theorem bit_test_nil (i : Nat) : bit_test [] i = false := by
  simp [bit_test]

theorem bit_test_cons (x : Bool) (xs : List Bool) (i : Nat) :
    bit_test (x :: xs) i = match i with | 0 => x | j+1 => bit_test xs j := by
  cases i <;> simp [bit_test, List.getD]

theorem bit_test_ge_len (b : List Bool) (i : Nat) (h : b.length ≤ i) :
    bit_test b i = false := by
  induction b generalizing i with
  | nil => simp [bit_test]
  | cons x xs ih =>
    cases i with
    | zero => simp at h
    | succ j => simpa [bit_test_cons] using ih j (by simpa using h)

theorem bit_test_set (b : List Bool) (v : Bool) (i j : Nat) :
    bit_test (b.set i v) j =
      if i = j ∧ j < b.length then v else bit_test b j := by
  induction b generalizing i j with
  | nil => simp [bit_test]
  | cons x xs ih =>
    cases i with
    | zero =>
      cases j with
      | zero => simp [bit_test_cons, List.set]
      | succ j' => simp [bit_test_cons, List.set, Nat.succ_lt_succ_iff]
    | succ i' =>
      cases j with
      | zero => simp [bit_test_cons, List.set]
      | succ j' =>
        simp only [List.set, bit_test_cons, ih, List.length_cons,
          Nat.succ_lt_succ_iff]
        by_cases h : i' = j' ∧ j' < xs.length <;> simp_all

theorem bit_test_clear (b : List Bool) (i j : Nat) :
    bit_test (bit_clear b i) j = (bit_test b j && !(decide (j = i))) := by
  rw [bit_clear, bit_test_set]
  by_cases h : i = j
  · subst h
    by_cases hl : i < b.length
    · simp [hl]
    · simp [bit_test_ge_len b i (Nat.le_of_not_lt hl), hl]
  · have h' : ¬ j = i := fun hh => h hh.symm
    simp [h, h']

theorem bit_test_set_eq (b : List Bool) (i j : Nat) :
    bit_test (bit_set b i) j = (bit_test b j || (decide (j = i) && decide (i < b.length))) := by
  rw [bit_set, bit_test_set]
  by_cases h : i = j
  · subst h
    by_cases hl : i < b.length
    · simp [hl]
    · simp [bit_test_ge_len b i (Nat.le_of_not_lt hl), hl]
  · have h' : ¬ j = i := fun hh => h hh.symm
    simp [h, h']

theorem length_bit_set (b : List Bool) (i : Nat) : (bit_set b i).length = b.length := by
  simp [bit_set]

theorem length_bit_clear (b : List Bool) (i : Nat) : (bit_clear b i).length = b.length := by
  simp [bit_clear]

theorem bit_ffs_eq_none (b : List Bool) :
    bit_ffs b = none ↔ ∀ i, bit_test b i = false := by
  induction b with
  | nil => simp [bit_ffs, bit_test]
  | cons x xs ih =>
    cases x with
    | true =>
      constructor
      · intro h; simp [bit_ffs] at h
      · intro h; have := h 0; simp [bit_test_cons] at this
    | false =>
      simp only [bit_ffs, Bool.false_eq_true, if_false, Option.map_eq_none']
      rw [ih]
      constructor
      · intro h i
        cases i with
        | zero => simp [bit_test_cons]
        | succ j => simpa [bit_test_cons] using h j
      · intro h i
        simpa [bit_test_cons] using h (i+1)

theorem bit_ffs_eq_some (b : List Bool) (i : Nat) (h : bit_ffs b = some i) :
    bit_test b i = true ∧ ∀ j, j < i → bit_test b j = false := by
  induction b generalizing i with
  | nil => simp [bit_ffs] at h
  | cons x xs ih =>
    cases x with
    | true =>
      simp only [bit_ffs, if_true, Option.some.injEq] at h
      subst h
      exact ⟨by simp [bit_test_cons], fun j hj => by omega⟩
    | false =>
      simp only [bit_ffs, Bool.false_eq_true, if_false, Option.map_eq_some'] at h
      obtain ⟨i', hi', rfl⟩ := h
      obtain ⟨h1, h2⟩ := ih i' hi'
      refine ⟨by simpa [bit_test_cons] using h1, ?_⟩
      intro j hj
      cases j with
      | zero => simp [bit_test_cons]
      | succ j' => simpa [bit_test_cons] using h2 j' (by omega)

theorem bit_set_count_pos_of_test (b : List Bool) (i : Nat)
    (h : bit_test b i = true) : 0 < bit_set_count b := by
  induction b generalizing i with
  | nil => simp [bit_test] at h
  | cons x xs ih =>
    cases i with
    | zero =>
      simp only [bit_test_cons] at h
      simp [bit_set_count, List.count_cons, h]
    | succ j =>
      simp only [bit_test_cons] at h
      have := ih j h
      simp only [bit_set_count, List.count_cons] at *
      omega

theorem bit_set_count_clear (b : List Bool) (i : Nat) (h : bit_test b i = true) :
    bit_set_count (bit_clear b i) = bit_set_count b - 1 := by
  induction b generalizing i with
  | nil => simp [bit_test] at h
  | cons x xs ih =>
    cases i with
    | zero =>
      simp only [bit_test_cons] at h
      simp [bit_clear, bit_set_count, List.count_cons, h]
    | succ j =>
      simp only [bit_test_cons] at h
      have hpos := bit_set_count_pos_of_test xs j h
      simp only [bit_clear, bit_set_count, List.set, List.count_cons] at *
      rw [ih j h]
      omega

theorem bit_set_count_clear_lt (b : List Bool) (i : Nat) (h : bit_test b i = true) :
    bit_set_count (bit_clear b i) < bit_set_count b := by
  have h1 := bit_set_count_clear b i h
  have h2 := bit_set_count_pos_of_test b i h
  omega

theorem cr_get_coremap_offset_succ (cl : Cluster) (n : Nat) (h : n < cl.cores.length) :
    cr_get_coremap_offset cl (n+1) =
      cr_get_coremap_offset cl n + cr_node_num_cores cl n := by
  unfold cr_get_coremap_offset cr_node_num_cores
  have h1 : cl.cores[n]? = some (cl.cores.get ⟨n, h⟩) := by
    simp [List.getElem?_eq_getElem h]
  rw [List.take_succ, List.sum_append, h1]
  simp [List.getD, h1]

theorem cr_get_coremap_offset_mono (cl : Cluster) {m n : Nat} (h : m ≤ n) :
    cr_get_coremap_offset cl m ≤ cr_get_coremap_offset cl n := by
  unfold cr_get_coremap_offset
  have hn : n = m + (n - m) := by omega
  rw [hn, List.take_add, List.sum_append]
  omega

/-! ## SpecCoreFilter -/

theorem node_of_aux_off (cs : List Nat) (n i : Nat) (hn : n < cs.length)
    (hi : i < cs.getD n 0) : node_of_aux cs ((cs.take n).sum + i) = n := by
  induction cs generalizing n i with
  | nil => simp at hn
  | cons c cs ih =>
    cases n with
    | zero =>
      simp only [List.getD_cons_zero] at hi
      simp [node_of_aux, hi]
    | succ m =>
      simp only [List.length_cons, Nat.succ_lt_succ_iff] at hn
      simp only [List.getD_cons_succ] at hi
      have hg : ¬ (((c :: cs).take (m+1)).sum + i < c) := by
        simp only [List.take_succ_cons, List.sum_cons]
        omega
      simp only [node_of_aux, List.take_succ_cons, List.sum_cons] at *
      rw [if_neg hg]
      have harg : c + (cs.take m).sum + i - c = (cs.take m).sum + i := by omega
      rw [harg, ih m i hn hi]

theorem node_of_coremap_offset (cl : Cluster) (n i : Nat)
    (hn : n < cl.cores.length) (hi : i < cr_node_num_cores cl n) :
    node_of cl (cr_get_coremap_offset cl n + i) = n :=
  node_of_aux_off cl.cores n i hn hi

theorem bit_test_range_map (f : Nat → Bool) (N g : Nat) :
    bit_test ((List.range N).map f) g = if g < N then f g else false := by
  by_cases h : g < N
  · have h1 : ((List.range N).map f)[g]? = some (f g) := by
      rw [List.getElem?_map, List.getElem?_range h]
      rfl
    simp [bit_test, List.getD, h1, h]
  · have h1 : ((List.range N).map f)[g]? = none := by
      rw [List.getElem?_eq_none]
      simpa using Nat.le_of_not_lt h
    simp [bit_test, List.getD, h1, h]

theorem length_make_core_bitmap (cl : Cluster) (nb : List Bool) :
    (make_core_bitmap cl nb).length = total_cores cl := by
  simp [make_core_bitmap]

theorem bit_test_make_core_bitmap (cl : Cluster) (nb : List Bool) (n i : Nat)
    (hn : n < cl.cores.length) (hi : i < cr_node_num_cores cl n) :
    bit_test (make_core_bitmap cl nb) (cr_get_coremap_offset cl n + i) =
      (bit_test cl.specCores (cr_get_coremap_offset cl n + i) && bit_test nb n) := by
  rw [make_core_bitmap, bit_test_range_map]
  have hlt : cr_get_coremap_offset cl n + i < total_cores cl := by
    have h1 : cr_get_coremap_offset cl n + i < cr_get_coremap_offset cl (n + 1) := by
      rw [cr_get_coremap_offset_succ cl n hn]; omega
    have h2 : cr_get_coremap_offset cl (n + 1) ≤ total_cores cl := by
      unfold cr_get_coremap_offset total_cores
      conv_rhs => rw [← List.take_length (l := cl.cores)]
      have hn1 : n + 1 = min (n+1) cl.cores.length := by omega
      calc ((cl.cores.take (n+1)).sum) ≤ ((cl.cores.take cl.cores.length).sum) := by
            have := cr_get_coremap_offset_mono cl (m := n+1) (n := cl.cores.length) hn
            simpa [cr_get_coremap_offset] using this
        _ = _ := by rw [List.take_length]
    omega
  rw [if_pos hlt, node_of_coremap_offset cl n i hn hi]

theorem bit_test_or (a b : List Bool) (g : Nat) (ha : g < a.length)
    (hb : g < b.length) :
    bit_test (bit_or a b) g = (bit_test a g || bit_test b g) := by
  induction a generalizing b g with
  | nil => simp at ha
  | cons x xs ih =>
    cases b with
    | nil => simp at hb
    | cons y ys =>
      cases g with
      | zero => simp [bit_or, bit_test_cons]
      | succ g' =>
        simp only [List.length_cons, Nat.succ_lt_succ_iff] at ha hb
        simpa [bit_or, bit_test_cons] using ih ys g' ha hb

theorem bit_test_not (b : List Bool) (g : Nat) (h : g < b.length) :
    bit_test (bit_not b) g = !(bit_test b g) := by
  induction b generalizing g with
  | nil => simp at h
  | cons x xs ih =>
    cases g with
    | zero => simp [bit_not, bit_test_cons]
    | succ g' =>
      simp only [List.length_cons, Nat.succ_lt_succ_iff] at h
      simpa [bit_not, bit_test_cons] using ih g' h

theorem length_bit_not (b : List Bool) : (bit_not b).length = b.length := by
  simp [bit_not]

theorem bit_or_right_idem (a b : List Bool) : bit_or (bit_or a b) b = bit_or a b := by
  induction a generalizing b with
  | nil => simp [bit_or]
  | cons x xs ih =>
    cases b with
    | nil => simp [bit_or]
    | cons y ys =>
      simp only [bit_or, List.zipWith_cons_cons] at *
      rw [ih ys]
      simp [Bool.or_assoc]

theorem coremap_off_lt_total (cl : Cluster) (n i : Nat)
    (hn : n < cl.cores.length) (hi : i < cr_node_num_cores cl n) :
    cr_get_coremap_offset cl n + i < total_cores cl := by
  have h1 : cr_get_coremap_offset cl n + i < cr_get_coremap_offset cl (n + 1) := by
    rw [cr_get_coremap_offset_succ cl n hn]; omega
  have h2 : cr_get_coremap_offset cl (n + 1) ≤ total_cores cl := by
    have h3 := cr_get_coremap_offset_mono cl (m := n+1) (n := cl.cores.length) hn
    have h4 : cr_get_coremap_offset cl cl.cores.length = total_cores cl := by
      simp [cr_get_coremap_offset, total_cores]
    omega
  omega

/-- C8: spec_core_filter sets the in/out core bitmap to the OR of its previous
value with the complement of the specialized-core map restricted to
`node_bitmap`; a null bitmap becomes that complemented mask itself.  Stated
per core bit `coremap_offset(n) + i` of each node `n`. -/
theorem spec_core_filter_merges (cl : Cluster) (nb x : List Bool)
    (hx : x.length = total_cores cl) :
    (∀ n, n < cl.cores.length → ∀ i, i < cr_node_num_cores cl n →
      bit_test (spec_core_filter cl nb (some x)) (cr_get_coremap_offset cl n + i)
        = (bit_test x (cr_get_coremap_offset cl n + i)
           || !(bit_test cl.specCores (cr_get_coremap_offset cl n + i)
                && bit_test nb n)))
    ∧ (∀ n, n < cl.cores.length → ∀ i, i < cr_node_num_cores cl n →
      bit_test (spec_core_filter cl nb none) (cr_get_coremap_offset cl n + i)
        = !(bit_test cl.specCores (cr_get_coremap_offset cl n + i)
            && bit_test nb n)) := by
  constructor
  · intro n hn i hi
    have hlt := coremap_off_lt_total cl n i hn hi
    show bit_test (bit_or x (bit_not (make_core_bitmap cl nb))) _ = _
    rw [bit_test_or x _ _ (by omega)
        (by rw [length_bit_not, length_make_core_bitmap]; omega),
      bit_test_not _ _ (by rw [length_make_core_bitmap]; omega),
      bit_test_make_core_bitmap cl nb n i hn hi]
  · intro n hn i hi
    have hlt := coremap_off_lt_total cl n i hn hi
    show bit_test (bit_not (make_core_bitmap cl nb)) _ = _
    rw [bit_test_not _ _ (by rw [length_make_core_bitmap]; omega),
      bit_test_make_core_bitmap cl nb n i hn hi]

/-- Witness for C8 at a one-node, one-core cluster whose core is specialized. -/
theorem spec_core_filter_merges_witness :
    bit_test (spec_core_filter ⟨[1], [true]⟩ [true] (some [false]))
        (cr_get_coremap_offset ⟨[1], [true]⟩ 0 + 0)
      = (bit_test [false] (cr_get_coremap_offset ⟨[1], [true]⟩ 0 + 0)
         || !(bit_test (Cluster.mk [1] [true]).specCores
                (cr_get_coremap_offset ⟨[1], [true]⟩ 0 + 0)
              && bit_test [true] 0)) :=
  (spec_core_filter_merges ⟨[1], [true]⟩ [true] [false] (by decide)).1
    0 (by decide) 0 (by decide)

/-- C9: applying spec_core_filter twice with the same node bitmap to a
non-null core bitmap gives the same contents as applying it once. -/
theorem spec_core_filter_idem (cl : Cluster) (nb x : List Bool) :
    spec_core_filter cl nb (some (spec_core_filter cl nb (some x)))
      = spec_core_filter cl nb (some x) := by
  show bit_or (bit_or x _) _ = bit_or x _
  exact bit_or_right_idem x (bit_not (make_core_bitmap cl nb))

/-! ## _get_avail_core_in_node -/

theorem bit_test_nclear (b : List Bool) (s : Nat) (e : Int) (j : Nat) :
    bit_test (bit_nclear b s e) j =
      if s ≤ j ∧ (j : Int) ≤ e then false else bit_test b j := by
  rw [bit_nclear, bit_test_range_map]
  by_cases hj : j < b.length
  · simp [hj]
  · rw [if_neg hj, bit_test_ge_len b j (Nat.le_of_not_lt hj)]
    simp

/-- C7: with a non-null exclusion bitmap, get_avail_core_in_node reports the
number of the node's cores not excluded when that number reaches
`cores_per_node`, and otherwise clears every one of the node's bits and
reports 0; with a null bitmap it reports the node's total core count. -/
theorem get_avail_core_in_node_spec (cl : Cluster) (node cpn : Nat) (b : List Bool) :
    (get_avail_core_in_node cl none node cpn = (cr_node_num_cores cl node, none))
    ∧ ((List.range (cr_node_num_cores cl node)).countP
          (fun i => !bit_test b (cr_get_coremap_offset cl node + i)) ≥ cpn →
        get_avail_core_in_node cl (some b) node cpn
          = ((List.range (cr_node_num_cores cl node)).countP
              (fun i => !bit_test b (cr_get_coremap_offset cl node + i)), some b))
    ∧ ((List.range (cr_node_num_cores cl node)).countP
          (fun i => !bit_test b (cr_get_coremap_offset cl node + i)) < cpn →
        (get_avail_core_in_node cl (some b) node cpn).1 = 0
        ∧ ∀ cb2, (get_avail_core_in_node cl (some b) node cpn).2 = some cb2 →
            ∀ j, bit_test cb2 j
              = (bit_test b j
                 && !(decide (cr_get_coremap_offset cl node ≤ j
                      ∧ j < cr_get_coremap_offset cl node + cr_node_num_cores cl node)))) := by
  refine ⟨rfl, fun h => ?_, fun h => ?_⟩
  · simp only [get_avail_core_in_node]
    rw [if_pos h]
  · have hneg : ¬ ((List.range (cr_node_num_cores cl node)).countP
        (fun i => !bit_test b (cr_get_coremap_offset cl node + i)) ≥ cpn) := by omega
    constructor
    · simp only [get_avail_core_in_node]
      rw [if_neg hneg]
    · intro cb2 hcb2 j
      simp only [get_avail_core_in_node] at hcb2
      rw [if_neg hneg] at hcb2
      simp only [Option.some.injEq] at hcb2
      subst hcb2
      rw [bit_test_nclear]
      by_cases hin : cr_get_coremap_offset cl node ≤ j
          ∧ j < cr_get_coremap_offset cl node + cr_node_num_cores cl node
      · rw [if_pos ⟨hin.1, by omega⟩]
        simp [hin]
      · rw [if_neg (by omega)]
        simp [hin]

/-- Witness for C7 on a two-core node with one free core and threshold 2. -/
theorem get_avail_core_in_node_spec_witness :
    (get_avail_core_in_node ⟨[2], []⟩ (some [true, false]) 0 2).1 = 0 :=
  ((get_avail_core_in_node_spec ⟨[2], []⟩ 0 2 [true, false]).2.2 (by decide)).1

theorem compare_support_eq_zero (a b : sort_support) :
    compare_support a b = 0 ↔ support_le a b := by
  simp only [compare_support, support_le]
  split_ifs with h
  · constructor
    · intro hh
      exact absurd hh (by simp)
    · intro hh
      exfalso
      omega
  · constructor <;> intro hh
    · omega
    · rfl

theorem support_le_total (a b : sort_support) : support_le a b ∨ support_le b a := by
  simp only [support_le]; omega

theorem qsort_insert_head (a : sort_support) (l : List sort_support) :
    ∀ z ∈ (qsort_insert a l).head?, z = a ∨ z ∈ l.head? := by
  cases l with
  | nil => simp [qsort_insert]
  | cons x xs =>
    intro z hz
    simp only [qsort_insert] at hz
    split_ifs at hz <;> simp_all

theorem chain'_qsort_insert (a : sort_support) (l : List sort_support)
    (h : List.Chain' support_le l) :
    List.Chain' support_le (qsort_insert a l) := by
  induction l with
  | nil => simp [qsort_insert]
  | cons x xs ih =>
    rw [qsort_insert]
    split_ifs with hc
    · exact List.Chain'.cons' h (fun z hz => by
        simp at hz; subst hz; exact (compare_support_eq_zero a x).mp hc)
    · have hx : support_le x a := by
        rcases support_le_total a x with h1 | h1
        · exact absurd ((compare_support_eq_zero a x).mpr h1) hc
        · exact h1
      rw [List.chain'_cons'] at h
      refine List.Chain'.cons' (ih h.2) (fun z hz => ?_)
      rcases qsort_insert_head a xs z hz with rfl | hz'
      · exact hx
      · exact h.1 z hz'

/-- C4: after the modelled qsort with compare_support, the master job array
is in ascending (jstart, ncpus) lexicographic order: the comparator returns
0 exactly on lex-≤ pairs, and every pair of adjacent elements of the sorted
output is lex-ordered. -/
theorem qsort_support_sorted :
    (∀ a b, compare_support a b = 0 ↔ support_le a b)
    ∧ ∀ l, List.Chain' support_le (qsort_support l) := by
  refine ⟨compare_support_eq_zero, fun l => ?_⟩
  induction l with
  | nil => simp [qsort_support]
  | cons x xs ih => exact chain'_qsort_insert x _ ih

/-! ## _sequential_pick

The function has a full-node regime (`core_cnt` null) and a within-node
regime.  Both mutate the caller's `avail_bitmap`; the embedding returns the
final bitmap and additionally records, as the `examined` list, the node
indices the loop cleared from `avail`, in order. -/

/-! ### Full-node regime lemmas -/

theorem set_bits_head (b : List Bool) : bit_ffs b = (set_bits b).head? := by
  induction b with
  | nil => simp [bit_ffs, set_bits]
  | cons x xs ih =>
    cases x with
    | true => simp [bit_ffs, set_bits]
    | false =>
      simp only [bit_ffs, Bool.false_eq_true, if_false, set_bits, List.nil_append]
      rw [ih, List.head?_map]

theorem bit_clear_cons_succ (x : Bool) (xs : List Bool) (i : Nat) :
    bit_clear (x :: xs) (i+1) = x :: bit_clear xs i := rfl

theorem bit_clear_cons_zero (x : Bool) (xs : List Bool) :
    bit_clear (x :: xs) 0 = false :: xs := rfl

theorem set_bits_clear_ffs (b : List Bool) (i : Nat) (h : bit_ffs b = some i) :
    set_bits (bit_clear b i) = (set_bits b).tail := by
  induction b generalizing i with
  | nil => simp [bit_ffs] at h
  | cons x xs ih =>
    cases x with
    | true =>
      simp only [bit_ffs, if_true, Option.some.injEq] at h
      subst h
      rw [bit_clear_cons_zero]
      simp [set_bits]
    | false =>
      simp only [bit_ffs, Bool.false_eq_true, if_false, Option.map_eq_some'] at h
      obtain ⟨i', hi', rfl⟩ := h
      rw [bit_clear_cons_succ]
      simp only [set_bits, List.nil_append]
      rw [ih i' hi']
      cases hs : set_bits xs with
      | nil => simp
      | cons y ys => simp

theorem seq_full_loop_eq (n : Nat) (avail : List Bool) :
    seq_full_loop avail n =
      ((set_bits avail).take n, ((set_bits avail).take n).foldl bit_clear avail) := by
  induction n generalizing avail with
  | zero => simp [seq_full_loop]
  | succ n ih =>
    rw [seq_full_loop]
    cases hf : bit_ffs avail with
    | none =>
      have hnil : set_bits avail = [] := by
        have := set_bits_head avail
        rw [hf] at this
        exact (List.head?_eq_none_iff).mp this.symm
      simp [hnil]
    | some inx =>
      have hhead : (set_bits avail).head? = some inx := by
        rw [← set_bits_head avail, hf]
      obtain ⟨tl, hsb⟩ : ∃ tl, set_bits avail = inx :: tl := by
        cases hs : set_bits avail with
        | nil => rw [hs] at hhead; simp at hhead
        | cons y ys =>
          rw [hs] at hhead
          simp at hhead
          exact ⟨ys, by rw [hhead]⟩
      show (inx :: (seq_full_loop (bit_clear avail inx) n).1,
            (seq_full_loop (bit_clear avail inx) n).2) = _
      rw [ih (bit_clear avail inx)]
      rw [set_bits_clear_ffs avail inx hf, hsb]
      simp

theorem length_set_bits (b : List Bool) :
    (set_bits b).length = bit_set_count b := by
  induction b with
  | nil => simp [set_bits, bit_set_count]
  | cons x xs ih =>
    cases x with
    | true => simp [set_bits, bit_set_count, List.count_cons, ih]
    | false => simp [set_bits, bit_set_count, List.count_cons, ih]

theorem mem_set_bits (b : List Bool) (i : Nat) :
    i ∈ set_bits b ↔ bit_test b i = true := by
  induction b generalizing i with
  | nil => simp [set_bits, bit_test]
  | cons x xs ih =>
    cases i with
    | zero =>
      cases x <;> simp [set_bits, bit_test_cons]
    | succ j =>
      cases x <;> simp [set_bits, bit_test_cons, ih]

theorem nodup_set_bits (b : List Bool) : (set_bits b).Nodup := by
  induction b with
  | nil => simp [set_bits]
  | cons x xs ih =>
    cases x with
    | false => simpa [set_bits] using ih.map (fun a b => by omega)
    | true =>
      simp only [set_bits, if_true, List.singleton_append, List.nodup_cons]
      refine ⟨by simp, ih.map (fun a b => by omega)⟩

theorem bit_set_count_cons (x : Bool) (l : List Bool) :
    bit_set_count (x :: l) = bit_set_count l + (if x = true then 1 else 0) := by
  cases x <;> simp [bit_set_count, List.count_cons]

theorem mem_take_set_bits (b : List Bool) (n i : Nat) :
    i ∈ (set_bits b).take n ↔
      (bit_test b i = true ∧ bit_set_count (b.take i) < n) := by
  induction b generalizing n i with
  | nil => simp [set_bits, bit_test]
  | cons x xs ih =>
    cases x with
    | true =>
      cases n with
      | zero => simp
      | succ m =>
        cases i with
        | zero => simp [set_bits, bit_test_cons, bit_set_count]
        | succ j =>
          simp only [set_bits, if_true, List.singleton_append, List.take_succ_cons,
            List.mem_cons, bit_test_cons]
          have hne : ¬ (j + 1 = 0) := by omega
          rw [← List.map_take]
          simp only [List.mem_map]
          constructor
          · intro h
            rcases h with h | ⟨a, ha, hai⟩
            · omega
            · have haj : a = j := by omega
              subst haj
              rw [ih] at ha
              refine ⟨ha.1, ?_⟩
              simp [bit_set_count_cons]
              omega
          · intro ⟨h1, h2⟩
            right
            refine ⟨j, ?_, rfl⟩
            rw [ih]
            refine ⟨h1, ?_⟩
            simp [bit_set_count_cons] at h2
            omega
    | false =>
      simp only [set_bits, Bool.false_eq_true, if_false, List.nil_append]
      rw [← List.map_take]
      simp only [List.mem_map]
      cases i with
      | zero =>
        simp only [bit_test_cons]
        constructor
        · intro ⟨a, _, ha⟩; omega
        · intro ⟨h1, _⟩; simp at h1
      | succ j =>
        simp only [bit_test_cons]
        constructor
        · intro ⟨a, ha, hai⟩
          have haj : a = j := by omega
          subst haj
          rw [ih] at ha
          refine ⟨ha.1, ?_⟩
          simp [bit_set_count_cons]
          omega
        · intro ⟨h1, h2⟩
          refine ⟨j, ?_, rfl⟩
          rw [ih]
          refine ⟨h1, ?_⟩
          simp [bit_set_count_cons] at h2
          exact h2

theorem bit_test_true_lt_len (b : List Bool) (i : Nat) (h : bit_test b i = true) :
    i < b.length := by
  by_contra hc
  rw [bit_test_ge_len b i (Nat.le_of_not_lt hc)] at h
  exact absurd h (by simp)

theorem bit_test_alloc (L i : Nat) : bit_test (bit_alloc L) i = false := by
  induction L generalizing i with
  | zero => simp [bit_alloc, bit_test]
  | succ n ih =>
    cases i with
    | zero => simp [bit_alloc, List.replicate, bit_test_cons]
    | succ j =>
      show bit_test (false :: List.replicate n false) (j+1) = false
      simpa [bit_test_cons] using ih j

theorem bit_set_count_alloc (L : Nat) : bit_set_count (bit_alloc L) = 0 := by
  simp [bit_alloc, bit_set_count, List.count_replicate]

theorem length_bit_alloc (L : Nat) : (bit_alloc L).length = L := by
  simp [bit_alloc]

theorem bit_set_count_set (b : List Bool) (i : Nat) (hf : bit_test b i = false)
    (hl : i < b.length) : bit_set_count (bit_set b i) = bit_set_count b + 1 := by
  induction b generalizing i with
  | nil => simp at hl
  | cons x xs ih =>
    cases i with
    | zero =>
      simp only [bit_test_cons] at hf
      simp [bit_set, bit_set_count, List.count_cons, hf]
    | succ j =>
      simp only [bit_test_cons] at hf
      simp only [List.length_cons, Nat.succ_lt_succ_iff] at hl
      simp only [bit_set, bit_set_count, List.set, List.count_cons] at *
      rw [ih j hf hl]
      omega

theorem bit_test_foldl_set (l : List Nat) (z : List Bool) (i : Nat) :
    bit_test (l.foldl bit_set z) i
      = (bit_test z i || (decide (i ∈ l) && decide (i < z.length))) := by
  induction l generalizing z with
  | nil => simp
  | cons x xs ih =>
    rw [List.foldl_cons, ih, bit_test_set_eq, length_bit_set]
    by_cases h2 : i = x
    · subst h2
      cases hb : bit_test z i <;> by_cases hlen : i < z.length <;>
        by_cases hmem : i ∈ xs <;> simp [hb, hlen, hmem, List.mem_cons]
    · simp [h2, List.mem_cons]

theorem count_foldl_set (l : List Nat) (z : List Bool) (hnd : l.Nodup)
    (hmem : ∀ i ∈ l, i < z.length ∧ bit_test z i = false) :
    bit_set_count (l.foldl bit_set z) = bit_set_count z + l.length := by
  induction l generalizing z with
  | nil => simp
  | cons x xs ih =>
    rw [List.nodup_cons] at hnd
    have hx := hmem x (List.mem_cons_self x xs)
    rw [List.foldl_cons]
    rw [ih (bit_set z x) hnd.2 ?_]
    · rw [bit_set_count_set z x hx.2 hx.1]
      simp [List.length_cons]
      omega
    · intro i hi
      refine ⟨by rw [length_bit_set]; exact (hmem i (List.mem_cons_of_mem x hi)).1, ?_⟩
      rw [bit_test_set_eq]
      have hne : ¬ (i = x) := fun hh => hnd.1 (hh ▸ hi)
      simp [hne, (hmem i (List.mem_cons_of_mem x hi)).2]

/-- C2: in the full-node regime (null core_cnt) the sequential picker
succeeds iff avail holds at least node_cnt set bits; on success the result
bitmap's set bits are exactly the node_cnt lowest-indexed set bits of avail
and its popcount is node_cnt; on failure the result is null. -/
theorem sequential_pick_full_node (cl : Cluster) (avail : List Bool)
    (node_cnt : Nat) (cb : Option (List Bool)) :
    ((sequential_pick cl avail node_cnt none cb).res.isSome
      ↔ node_cnt ≤ bit_set_count avail)
    ∧ (∀ bm, (sequential_pick cl avail node_cnt none cb).res = some bm →
        (∀ i, bit_test bm i = true
            ↔ (bit_test avail i = true ∧ bit_set_count (avail.take i) < node_cnt))
        ∧ bit_set_count bm = node_cnt) := by
  have hloop := seq_full_loop_eq node_cnt avail
  have hlen1 : (seq_full_loop avail node_cnt).1.length = min node_cnt (bit_set_count avail) := by
    rw [hloop]
    simp [List.length_take, length_set_bits]
  have hiff : ((seq_full_loop avail node_cnt).1.length = node_cnt)
      ↔ node_cnt ≤ bit_set_count avail := by
    rw [hlen1]
    omega
  constructor
  · simp only [sequential_pick]
    split_ifs with h
    · simpa using hiff.mp h
    · simp only [Option.isSome_none, Bool.false_eq_true, false_iff]
      intro hc
      exact h (hiff.mpr hc)
  · intro bm hbm
    simp only [sequential_pick] at hbm
    split_ifs at hbm with h
    · simp only [Option.some.injEq] at hbm
      subst hbm
      have hnodup : (seq_full_loop avail node_cnt).1.Nodup := by
        rw [hloop]
        exact (nodup_set_bits avail).sublist (List.take_sublist _ _)
      have hmem : ∀ i, i ∈ (seq_full_loop avail node_cnt).1
          ↔ (bit_test avail i = true ∧ bit_set_count (avail.take i) < node_cnt) := by
        intro i
        rw [hloop]
        exact mem_take_set_bits avail node_cnt i
      have hbnd : ∀ i ∈ (seq_full_loop avail node_cnt).1,
          i < (bit_alloc avail.length).length ∧ bit_test (bit_alloc avail.length) i = false := by
        intro i hi
        refine ⟨?_, bit_test_alloc _ _⟩
        rw [length_bit_alloc]
        exact bit_test_true_lt_len avail i ((hmem i).mp hi).1
      constructor
      · intro i
        rw [bit_test_foldl_set, bit_test_alloc, length_bit_alloc]
        constructor
        · intro hh
          simp only [Bool.false_or, Bool.and_eq_true, decide_eq_true_eq] at hh
          exact (hmem i).mp hh.1
        · intro hh
          have hi := (hmem i).mpr hh
          have hlt := bit_test_true_lt_len avail i hh.1
          simp [hi, hlt]
      · rw [count_foldl_set _ _ hnodup hbnd, bit_set_count_alloc]
        omega

/-- Witness for C2 at avail = 1101b, node_cnt = 2: picks nodes 0 and 1. -/
theorem sequential_pick_full_node_witness :
    bit_set_count ((sequential_pick ⟨[1,1,1,1], []⟩ [true, true, false, true] 2
        none none).res.getD []) = 2 :=
  ((sequential_pick_full_node ⟨[1,1,1,1], []⟩ [true, true, false, true] 2 none).2
    ((sequential_pick ⟨[1,1,1,1], []⟩ [true, true, false, true] 2 none none).res.getD [])
    (by decide)).2

/-! ### Within-node regime lemmas (C3) -/

theorem off_le_total (cl : Cluster) (k : Nat) :
    cr_get_coremap_offset cl k ≤ total_cores cl := by
  rcases le_or_lt k cl.cores.length with h | h
  · have h1 := cr_get_coremap_offset_mono cl h
    have h2 : cr_get_coremap_offset cl cl.cores.length = total_cores cl := by
      simp [cr_get_coremap_offset, total_cores]
    omega
  · unfold cr_get_coremap_offset total_cores
    rw [List.take_of_length_le (by omega)]

theorem coremap_interval_disjoint (cl : Cluster) (n m g : Nat) (hnm : n ≠ m)
    (h1 : cr_get_coremap_offset cl n ≤ g) (h2 : g < cr_get_coremap_offset cl (n+1))
    (h3 : cr_get_coremap_offset cl m ≤ g) (h4 : g < cr_get_coremap_offset cl (m+1)) :
    False := by
  rcases Nat.lt_or_ge n m with h | h
  · have := cr_get_coremap_offset_mono cl (show n+1 ≤ m by omega)
    omega
  · have := cr_get_coremap_offset_mono cl (show m+1 ≤ n by omega)
    omega

theorem bit_test_and_not_self (b : List Bool) (g : Nat) :
    bit_test (bit_and b (bit_not b)) g = false := by
  induction b generalizing g with
  | nil => simp [bit_and, bit_not, bit_test]
  | cons x xs ih =>
    cases g with
    | zero => cases x <;> simp [bit_and, bit_not, bit_test_cons]
    | succ j => simpa [bit_and, bit_not, bit_test_cons] using ih j

theorem length_and_not_self (b : List Bool) :
    (bit_and b (bit_not b)).length = b.length := by
  simp [bit_and, bit_not]

theorem length_spec_core_filter (cl : Cluster) (nb : List Bool)
    (cb : Option (List Bool)) (hcb : ∀ x, cb = some x → x.length = total_cores cl) :
    (spec_core_filter cl nb cb).length = total_cores cl := by
  cases cb with
  | none => simp [spec_core_filter, length_bit_not, length_make_core_bitmap]
  | some x =>
    have hx := hcb x rfl
    simp [spec_core_filter, bit_or, length_bit_not, length_make_core_bitmap, hx]

theorem take_cores_spec (tmpcore : List Bool) (coff cpn : Nat) :
    ∀ (rem i : Nat) (cb : List Bool) (total extra cin : Nat),
      coff + i + rem ≤ cb.length →
      ((take_cores tmpcore coff cpn rem i cb total extra cin).1.length = cb.length
      ∧ (∀ g, ¬ (coff + i ≤ g ∧ g < coff + i + rem) →
          bit_test (take_cores tmpcore coff cpn rem i cb total extra cin).1 g
            = bit_test cb g)
      ∧ (∀ g, bit_test cb g = true →
          bit_test (take_cores tmpcore coff cpn rem i cb total extra cin).1 g = true)
      ∧ cin ≤ (take_cores tmpcore coff cpn rem i cb total extra cin).2.2.2
      ∧ ((take_cores tmpcore coff cpn rem i cb total extra cin).2.2.2 = cin →
          (take_cores tmpcore coff cpn rem i cb total extra cin).1 = cb)
      ∧ ((take_cores tmpcore coff cpn rem i cb total extra cin).2.2.2 ≠ cin →
          ∃ g, coff + i ≤ g ∧ g < coff + i + rem ∧
            bit_test (take_cores tmpcore coff cpn rem i cb total extra cin).1 g = true)) := by
  intro rem
  induction rem with
  | zero =>
    intro i cb total extra cin hbound
    simp [take_cores]
  | succ rem ih =>
    intro i cb total extra cin hbound
    simp only [take_cores]
    cases htc : bit_test tmpcore (coff + i) with
    | true =>
      simp only [if_true]
      have hset : bit_test (bit_set cb (coff + i)) (coff + i) = true := by
        rw [bit_test_set_eq]
        have : coff + i < cb.length := by omega
        simp [this]
      by_cases hstop : total - 1 = 0 ∨
          ((if cin + 1 > cpn then dec_u32 extra else extra) = 0 ∧ cin + 1 ≥ cpn)
      · rw [if_pos hstop]
        dsimp only
        refine ⟨by rw [length_bit_set], ?_, ?_, by omega, ?_, ?_⟩
        · intro g hg
          rw [bit_test_set_eq]
          have hne : ¬ (g = coff + i) := by omega
          simp [hne]
        · intro g hgt
          rw [bit_test_set_eq, hgt]
          simp
        · intro h
          exact absurd h (by omega)
        · intro _
          exact ⟨coff + i, by omega, by omega, hset⟩
      · rw [if_neg hstop]
        have hb2 : coff + (i+1) + rem ≤ (bit_set cb (coff + i)).length := by
          rw [length_bit_set]; omega
        obtain ⟨l1, l2, l3, l4, l5, l6⟩ :=
          ih (i+1) (bit_set cb (coff + i)) (total - 1)
            (if cin + 1 > cpn then dec_u32 extra else extra) (cin + 1) hb2
        refine ⟨by rw [l1, length_bit_set], ?_, ?_, by omega, ?_, ?_⟩
        · intro g hg
          rw [l2 g (by omega), bit_test_set_eq]
          have hne : ¬ (g = coff + i) := by omega
          simp [hne]
        · intro g hgt
          apply l3
          rw [bit_test_set_eq, hgt]
          simp
        · intro h
          exact absurd h (by omega)
        · intro _
          exact ⟨coff + i, by omega, by omega, l3 _ hset⟩
    | false =>
      simp only [Bool.false_eq_true, if_false]
      have hb2 : coff + (i+1) + rem ≤ cb.length := by omega
      obtain ⟨l1, l2, l3, l4, l5, l6⟩ := ih (i+1) cb total extra cin hb2
      refine ⟨l1, ?_, l3, l4, l5, ?_⟩
      · intro g hg
        exact l2 g (by omega)
      · intro hne
        obtain ⟨g, hg1, hg2, hg3⟩ := l6 hne
        exact ⟨g, by omega, by omega, hg3⟩

theorem seq_part_step_invariant (cl : Cluster) (node_cnt : Nat) (l : List Nat)
    (tmpcore : List Bool) (cpn0 : Nat) (st st2 : seq_part_state)
    (hstep : seq_part_step cl node_cnt l tmpcore cpn0 st = some st2)
    (h1 : st.core_bitmap.length = total_cores cl)
    (h2 : st.sp.length = st.avail.length)
    (h3 : ∀ n, bit_test st.sp n = true → bit_test st.avail n = false)
    (h4 : ∀ n, n < cl.cores.length →
        (bit_test st.sp n = true ↔ ∃ i, i < cr_node_num_cores cl n ∧
          bit_test st.core_bitmap (cr_get_coremap_offset cl n + i) = true)) :
    st2.core_bitmap.length = total_cores cl
    ∧ st2.sp.length = st2.avail.length
    ∧ (∀ n, bit_test st2.sp n = true → bit_test st2.avail n = false)
    ∧ (∀ n, n < cl.cores.length →
        (bit_test st2.sp n = true ↔ ∃ i, i < cr_node_num_cores cl n ∧
          bit_test st2.core_bitmap (cr_get_coremap_offset cl n + i) = true)) := by
  simp only [seq_part_step] at hstep
  by_cases ht : st.total = 0
  · simp [ht] at hstep
  · rw [if_neg ht] at hstep
    by_cases hbrk : node_cnt = 0 ∧ (if node_cnt = 0 then l.getD st.node_list_inx 0 else cpn0) = 0
    · rw [if_pos hbrk] at hstep
      exact absurd hstep (by simp)
    · rw [if_neg hbrk] at hstep
      cases hffs : bit_ffs st.avail with
      | none =>
        rw [hffs] at hstep
        exact absurd hstep (by simp)
      | some inx =>
        rw [hffs] at hstep
        dsimp only at hstep
        obtain ⟨hinxt, _⟩ := bit_ffs_eq_some st.avail inx hffs
        have hinxlen : inx < st.avail.length := bit_test_true_lt_len _ _ hinxt
        have hspinx : bit_test st.sp inx = false := by
          cases hsp : bit_test st.sp inx
          · rfl
          · have := h3 inx hsp
            rw [hinxt] at this
            exact absurd this (by simp)
        have hclr : ∀ n, bit_test st.sp n = true →
            bit_test (bit_clear st.avail inx) n = false := by
          intro n hsp
          rw [bit_test_clear, h3 n hsp]
          simp
        by_cases hlow : cr_get_coremap_offset cl (inx + 1) - cr_get_coremap_offset cl inx
            < (if node_cnt = 0 then l.getD st.node_list_inx 0 else cpn0)
        · rw [if_pos hlow] at hstep
          obtain rfl := Option.some.inj hstep.symm
          exact ⟨h1, by simpa [length_bit_clear] using h2, hclr, h4⟩
        · rw [if_neg hlow] at hstep
          by_cases hcin : (List.range (cr_get_coremap_offset cl (inx + 1)
                - cr_get_coremap_offset cl inx)).countP
              (fun i => bit_test tmpcore (cr_get_coremap_offset cl inx + i))
              < (if node_cnt = 0 then l.getD st.node_list_inx 0 else cpn0)
          · rw [if_pos hcin] at hstep
            obtain rfl := Option.some.inj hstep.symm
            exact ⟨h1, by simpa [length_bit_clear] using h2, hclr, h4⟩
          · rw [if_neg hcin] at hstep
            obtain rfl := Option.some.inj hstep.symm
            have hbound : cr_get_coremap_offset cl inx + 0 +
                (cr_get_coremap_offset cl (inx + 1) - cr_get_coremap_offset cl inx)
                ≤ st.core_bitmap.length := by
              have hm := cr_get_coremap_offset_mono cl (show inx ≤ inx + 1 by omega)
              have hle := off_le_total cl (inx + 1)
              omega
            obtain ⟨l1, l2, l3, l4, l5, l6⟩ := take_cores_spec tmpcore
              (cr_get_coremap_offset cl inx)
              (if node_cnt = 0 then l.getD st.node_list_inx 0 else cpn0)
              (cr_get_coremap_offset cl (inx + 1) - cr_get_coremap_offset cl inx)
              0 st.core_bitmap st.total st.extra 0 hbound
            revert l1 l2 l3 l4 l5 l6
            generalize take_cores tmpcore (cr_get_coremap_offset cl inx)
              (if node_cnt = 0 then l.getD st.node_list_inx 0 else cpn0)
              (cr_get_coremap_offset cl (inx + 1) - cr_get_coremap_offset cl inx)
              0 st.core_bitmap st.total st.extra 0 = r
            intro l1 l2 l3 l4 l5 l6
            refine ⟨by simpa [h1] using l1, ?_, ?_, ?_⟩
            · show (if r.2.2.2 ≠ 0 then bit_set st.sp inx else st.sp).length
                = (bit_clear st.avail inx).length
              split_ifs <;> simp [length_bit_set, length_bit_clear, h2]
            · intro n hsp
              show bit_test (bit_clear st.avail inx) n = false
              by_cases hc0 : r.2.2.2 = 0
              · simp only [hc0, ne_eq, not_true_eq_false, if_false] at hsp
                exact hclr n hsp
              · simp only [ne_eq, hc0, not_false_eq_true, if_true] at hsp
                rw [bit_test_set_eq] at hsp
                rcases Bool.or_eq_true_iff.mp hsp with hsp1 | hsp2
                · exact hclr n hsp1
                · simp only [Bool.and_eq_true, decide_eq_true_eq] at hsp2
                  obtain ⟨rfl, -⟩ := hsp2
                  rw [bit_test_clear]
                  simp
            · intro n hn
              by_cases hc0 : r.2.2.2 = 0
              · have hcb := l5 hc0
                simp only [hc0, ne_eq, not_true_eq_false, if_false]
                show bit_test st.sp n = true ↔ _
                rw [hcb]
                exact h4 n hn
              · simp only [ne_eq, hc0, not_false_eq_true, if_true]
                by_cases hni : n = inx
                · subst hni
                  constructor
                  · intro _
                    obtain ⟨g, hg1, hg2, hg3⟩ := l6 hc0
                    refine ⟨g - cr_get_coremap_offset cl n, ?_, ?_⟩
                    · have hsucc := cr_get_coremap_offset_succ cl n hn
                      omega
                    · have : cr_get_coremap_offset cl n +
                          (g - cr_get_coremap_offset cl n) = g := by omega
                      rw [this]
                      exact hg3
                  · intro _
                    rw [bit_test_set_eq]
                    have : n < st.sp.length := by omega
                    simp [this]
                · have hsp2 : bit_test (bit_set st.sp inx) n = bit_test st.sp n := by
                    rw [bit_test_set_eq]
                    simp [hni]
                  have hsucc := cr_get_coremap_offset_succ cl n hn
                  have hcbn : ∀ i, i < cr_node_num_cores cl n →
                      bit_test r.1 (cr_get_coremap_offset cl n + i)
                        = bit_test st.core_bitmap (cr_get_coremap_offset cl n + i) := by
                    intro i hi
                    apply l2
                    intro hcontra
                    obtain ⟨ha, hb⟩ := hcontra
                    have hm := cr_get_coremap_offset_mono cl (show inx ≤ inx + 1 by omega)
                    have hcanc : cr_get_coremap_offset cl inx +
                        (cr_get_coremap_offset cl (inx+1) - cr_get_coremap_offset cl inx)
                        = cr_get_coremap_offset cl (inx+1) := Nat.add_sub_cancel' hm
                    have d1 : cr_get_coremap_offset cl n ≤ cr_get_coremap_offset cl n + i :=
                      Nat.le_add_right _ _
                    have d2 : cr_get_coremap_offset cl n + i < cr_get_coremap_offset cl (n+1) := by
                      rw [hsucc]
                      exact Nat.add_lt_add_left hi _
                    have d3 : cr_get_coremap_offset cl inx ≤ cr_get_coremap_offset cl n + i := by
                      simpa using ha
                    have d4 : cr_get_coremap_offset cl n + i < cr_get_coremap_offset cl (inx+1) := by
                      rw [← hcanc]
                      simpa using hb
                    exact coremap_interval_disjoint cl n inx
                      (cr_get_coremap_offset cl n + i) hni d1 d2 d3 d4
                  rw [hsp2, h4 n hn]
                  constructor
                  · intro ⟨i, hi, hb⟩
                    exact ⟨i, hi, by rw [hcbn i hi]; exact hb⟩
                  · intro ⟨i, hi, hb⟩
                    exact ⟨i, hi, by rw [← hcbn i hi]; exact hb⟩

theorem seq_part_loop_invariant (cl : Cluster) (node_cnt : Nat) (l : List Nat)
    (tmpcore : List Bool) (cpn0 : Nat) :
    ∀ (fuel : Nat) (st : seq_part_state),
      st.core_bitmap.length = total_cores cl →
      st.sp.length = st.avail.length →
      (∀ n, bit_test st.sp n = true → bit_test st.avail n = false) →
      (∀ n, n < cl.cores.length →
        (bit_test st.sp n = true ↔ ∃ i, i < cr_node_num_cores cl n ∧
          bit_test st.core_bitmap (cr_get_coremap_offset cl n + i) = true)) →
      (seq_part_loop cl node_cnt l tmpcore cpn0 fuel st).core_bitmap.length
          = total_cores cl
      ∧ ∀ n, n < cl.cores.length →
        (bit_test (seq_part_loop cl node_cnt l tmpcore cpn0 fuel st).sp n = true
          ↔ ∃ i, i < cr_node_num_cores cl n ∧
            bit_test (seq_part_loop cl node_cnt l tmpcore cpn0 fuel st).core_bitmap
              (cr_get_coremap_offset cl n + i) = true) := by
  intro fuel
  induction fuel with
  | zero =>
    intro st h1 h2 h3 h4
    exact ⟨h1, h4⟩
  | succ fuel ih =>
    intro st h1 h2 h3 h4
    rw [seq_part_loop]
    cases hstep : seq_part_step cl node_cnt l tmpcore cpn0 st with
    | none => exact ⟨h1, h4⟩
    | some st2 =>
      obtain ⟨k1, k2, k3, k4⟩ := seq_part_step_invariant cl node_cnt l tmpcore cpn0
        st st2 hstep h1 h2 h3 h4
      exact ih st2 k1 k2 k3 k4

/-- C3: in the within-node regime (non-null core_cnt) the sequential picker
returns null exactly when its node-scanning loop stops with the remaining
total core count still positive; otherwise it returns the bitmap of the
nodes cores were taken from: node n is reported iff some core of node n was
written into the output core bitmap. -/
theorem sequential_pick_within_node (cl : Cluster) (avail : List Bool)
    (node_cnt : Nat) (l : List Nat) (cb : Option (List Bool))
    (hcb : ∀ x, cb = some x → x.length = total_cores cl) :
    ((sequential_pick cl avail node_cnt (some l) cb).res = none
       ↔ 0 < (seq_part_final cl avail node_cnt l cb).total)
    ∧ (∀ bm, (sequential_pick cl avail node_cnt (some l) cb).res = some bm →
        ∀ n, n < cl.cores.length →
          (bit_test bm n = true ↔ ∃ i, i < cr_node_num_cores cl n ∧
            bit_test (seq_part_final cl avail node_cnt l cb).core_bitmap
              (cr_get_coremap_offset cl n + i) = true)) := by
  have hinv : (seq_part_final cl avail node_cnt l cb).core_bitmap.length = total_cores cl
      ∧ ∀ n, n < cl.cores.length →
        (bit_test (seq_part_final cl avail node_cnt l cb).sp n = true
          ↔ ∃ i, i < cr_node_num_cores cl n ∧
            bit_test (seq_part_final cl avail node_cnt l cb).core_bitmap
              (cr_get_coremap_offset cl n + i) = true) := by
    refine seq_part_loop_invariant cl node_cnt l _ _ (bit_set_count avail + 1) _
      ?_ ?_ ?_ ?_
    · show (bit_and (spec_core_filter cl avail cb)
          (bit_not (spec_core_filter cl avail cb))).length = total_cores cl
      rw [length_and_not_self]
      exact length_spec_core_filter cl avail cb hcb
    · show (bit_alloc avail.length).length = avail.length
      exact length_bit_alloc _
    · intro n hsp
      rw [bit_test_alloc] at hsp
      exact absurd hsp (by simp)
    · intro n _
      constructor
      · intro hsp
        rw [bit_test_alloc] at hsp
        exact absurd hsp (by simp)
      · intro ⟨i, _, hb⟩
        rw [bit_test_and_not_self] at hb
        exact absurd hb (by simp)
  constructor
  · simp only [sequential_pick]
    split_ifs with h
    · simp
      omega
    · simp
      omega
  · intro bm hbm
    simp only [sequential_pick] at hbm
    split_ifs at hbm with h
    simp only [Option.some.injEq] at hbm
    subst hbm
    exact hinv.2

/-- Witness for C3: one 2-core node, all cores specialized, reserving 2
cores on 1 node; node 0 is reported and both of its cores are taken. -/
theorem sequential_pick_within_node_witness :
    bit_test ((sequential_pick ⟨[2], [true, true]⟩ [true] 1 (some [2]) none).res.getD []) 0
      = true
    ↔ ∃ i, i < cr_node_num_cores ⟨[2], [true, true]⟩ 0 ∧
        bit_test (seq_part_final ⟨[2], [true, true]⟩ [true] 1 [2] none).core_bitmap
          (cr_get_coremap_offset ⟨[2], [true, true]⟩ 0 + i) = true :=
  (sequential_pick_within_node ⟨[2], [true, true]⟩ [true] 1 [2] none
      (fun x hx => absurd hx (by simp))).2
    ((sequential_pick ⟨[2], [true, true]⟩ [true] 1 (some [2]) none).res.getD [])
    (by decide) 0 (by decide)

/-! ### Frame-effect lemmas (C10) -/

theorem bit_test_foldl_clear (l : List Nat) (z : List Bool) (n : Nat) :
    bit_test (l.foldl bit_clear z) n = (bit_test z n && !(decide (n ∈ l))) := by
  induction l generalizing z with
  | nil => simp
  | cons x xs ih =>
    rw [List.foldl_cons, ih, bit_test_clear]
    by_cases hx : n = x
    · subst hx
      simp
    · simp [hx, List.mem_cons]

theorem mem_append_singleton (n inx : Nat) (ex : List Nat) :
    decide (n ∈ ex ++ [inx]) = (decide (n ∈ ex) || decide (n = inx)) := by
  simp [List.mem_append]

theorem seq_part_step_frame (cl : Cluster) (node_cnt : Nat) (l : List Nat)
    (tmpcore : List Bool) (cpn0 : Nat) (st st2 : seq_part_state)
    (hstep : seq_part_step cl node_cnt l tmpcore cpn0 st = some st2)
    (avail0 : List Bool)
    (h1 : ∀ n, bit_test st.avail n
        = (bit_test avail0 n && !(decide (n ∈ st.examined))))
    (h2 : ∀ n, bit_test st.sp n = true → n ∈ st.examined) :
    (∀ n, bit_test st2.avail n
        = (bit_test avail0 n && !(decide (n ∈ st2.examined))))
    ∧ (∀ n, bit_test st2.sp n = true → n ∈ st2.examined) := by
  simp only [seq_part_step] at hstep
  by_cases ht : st.total = 0
  · simp [ht] at hstep
  · rw [if_neg ht] at hstep
    by_cases hbrk : node_cnt = 0 ∧ (if node_cnt = 0 then l.getD st.node_list_inx 0 else cpn0) = 0
    · rw [if_pos hbrk] at hstep
      exact absurd hstep (by simp)
    · rw [if_neg hbrk] at hstep
      cases hffs : bit_ffs st.avail with
      | none =>
        rw [hffs] at hstep
        exact absurd hstep (by simp)
      | some inx =>
        rw [hffs] at hstep
        dsimp only at hstep
        have hx1 : ∀ n, bit_test (bit_clear st.avail inx) n
            = (bit_test avail0 n && !(decide (n ∈ st.examined ++ [inx]))) := by
          intro n
          rw [bit_test_clear, h1 n, mem_append_singleton]
          cases bit_test avail0 n <;> cases hd1 : decide (n ∈ st.examined) <;>
            cases hd2 : decide (n = inx) <;> simp_all
        have hx2 : ∀ n, bit_test st.sp n = true → n ∈ st.examined ++ [inx] := by
          intro n hsp
          exact List.mem_append_left _ (h2 n hsp)
        by_cases hlow : cr_get_coremap_offset cl (inx + 1) - cr_get_coremap_offset cl inx
            < (if node_cnt = 0 then l.getD st.node_list_inx 0 else cpn0)
        · rw [if_pos hlow] at hstep
          obtain rfl := Option.some.inj hstep.symm
          exact ⟨hx1, hx2⟩
        · rw [if_neg hlow] at hstep
          by_cases hcin : (List.countP (fun i => bit_test tmpcore (cr_get_coremap_offset cl inx + i))
              (List.range (cr_get_coremap_offset cl (inx + 1) - cr_get_coremap_offset cl inx)))
              < (if node_cnt = 0 then l.getD st.node_list_inx 0 else cpn0)
          · rw [if_pos hcin] at hstep
            obtain rfl := Option.some.inj hstep.symm
            exact ⟨hx1, hx2⟩
          · rw [if_neg hcin] at hstep
            obtain rfl := Option.some.inj hstep.symm
            refine ⟨hx1, ?_⟩
            intro n hsp
            show n ∈ st.examined ++ [inx]
            by_cases hc0 : (take_cores tmpcore (cr_get_coremap_offset cl inx)
                (if node_cnt = 0 then l.getD st.node_list_inx 0 else cpn0)
                (cr_get_coremap_offset cl (inx + 1) - cr_get_coremap_offset cl inx)
                0 st.core_bitmap st.total st.extra 0).2.2.2 = 0
            · simp only [hc0, ne_eq, not_true_eq_false, if_false] at hsp
              exact hx2 n hsp
            · simp only [ne_eq, hc0, not_false_eq_true, if_true] at hsp
              rw [bit_test_set_eq] at hsp
              rcases Bool.or_eq_true_iff.mp hsp with hsp1 | hsp2
              · exact hx2 n hsp1
              · simp only [Bool.and_eq_true, decide_eq_true_eq] at hsp2
                obtain ⟨rfl, -⟩ := hsp2
                exact List.mem_append_right _ (by simp)

theorem seq_part_loop_frame (cl : Cluster) (node_cnt : Nat) (l : List Nat)
    (tmpcore : List Bool) (cpn0 : Nat) :
    ∀ (fuel : Nat) (st : seq_part_state) (avail0 : List Bool),
      (∀ n, bit_test st.avail n
          = (bit_test avail0 n && !(decide (n ∈ st.examined)))) →
      (∀ n, bit_test st.sp n = true → n ∈ st.examined) →
      (∀ n, bit_test (seq_part_loop cl node_cnt l tmpcore cpn0 fuel st).avail n
          = (bit_test avail0 n
             && !(decide (n ∈ (seq_part_loop cl node_cnt l tmpcore cpn0 fuel st).examined))))
      ∧ (∀ n, bit_test (seq_part_loop cl node_cnt l tmpcore cpn0 fuel st).sp n = true
          → n ∈ (seq_part_loop cl node_cnt l tmpcore cpn0 fuel st).examined) := by
  intro fuel
  induction fuel with
  | zero =>
    intro st avail0 h1 h2
    exact ⟨h1, h2⟩
  | succ fuel ih =>
    intro st avail0 h1 h2
    rw [seq_part_loop]
    cases hstep : seq_part_step cl node_cnt l tmpcore cpn0 st with
    | none => exact ⟨h1, h2⟩
    | some st2 =>
      obtain ⟨k1, k2⟩ := seq_part_step_frame cl node_cnt l tmpcore cpn0 st st2 hstep
        avail0 h1 h2
      exact ih st2 avail0 k1 k2

theorem pick_first_loop_frame (cl : Cluster) (l : List Nat) :
    ∀ (idxs : List Nat) (st : pfc_state) (avail0 : List Bool),
      (∀ n, bit_test st.avail n
          = (bit_test avail0 n && !(decide (n ∈ st.examined)))) →
      (∀ n, bit_test st.sp n = true → n ∈ st.examined) →
      (∀ n, bit_test (pick_first_loop cl l idxs st).avail n
          = (bit_test avail0 n
             && !(decide (n ∈ (pick_first_loop cl l idxs st).examined))))
      ∧ (∀ n, bit_test (pick_first_loop cl l idxs st).sp n = true
          → n ∈ (pick_first_loop cl l idxs st).examined) := by
  intro idxs
  induction idxs with
  | nil =>
    intro st avail0 h1 h2
    exact ⟨h1, h2⟩
  | cons inx rest ih =>
    intro st avail0 h1 h2
    have hx1 : ∀ n, bit_test (bit_clear st.avail inx) n
        = (bit_test avail0 n && !(decide (n ∈ st.examined ++ [inx]))) := by
      intro n
      rw [bit_test_clear, h1 n, mem_append_singleton]
      cases bit_test avail0 n <;> cases hd1 : decide (n ∈ st.examined) <;>
        cases hd2 : decide (n = inx) <;> simp_all
    have hx2 : ∀ n, bit_test st.sp n = true → n ∈ st.examined ++ [inx] := by
      intro n hsp
      exact List.mem_append_left _ (h2 n hsp)
    have hx3 : ∀ n, bit_test (bit_set st.sp inx) n = true → n ∈ st.examined ++ [inx] := by
      intro n hsp
      rw [bit_test_set_eq] at hsp
      rcases Bool.or_eq_true_iff.mp hsp with hsp1 | hsp2
      · exact hx2 n hsp1
      · simp only [Bool.and_eq_true, decide_eq_true_eq] at hsp2
        obtain ⟨rfl, -⟩ := hsp2
        exact List.mem_append_right _ (by simp)
    rw [pick_first_loop]
    by_cases hskip : (pfc_take st.tmpcore (cr_get_coremap_offset cl inx)
        (if cr_get_coremap_offset cl (inx + 1) - cr_get_coremap_offset cl inx
            < l.getD st.node_offset 0 then 0 else l.getD st.node_offset 0)
        0 st.core_bitmap).1 < l.getD st.node_offset 0
    · rw [if_pos hskip]
      exact ih _ avail0 hx1 hx2
    · rw [if_neg hskip]
      by_cases hbrk : l.getD (st.node_offset + 1) 0 = 0
      · rw [if_pos hbrk]
        exact ⟨hx1, hx3⟩
      · rw [if_neg hbrk]
        exact ih _ avail0 hx1 hx3

/-- C10: both reservation pickers mutate the caller's avail bitmap in place:
the final avail equals the initial one with every examined node cleared
(also when the call fails and returns null), and any node reported in a
successful result bitmap is one of the examined (hence cleared) nodes; the
chosen nodes are reported only through the freshly allocated result. -/
theorem pickers_mutate_avail :
    (∀ (cl : Cluster) (avail : List Bool) (node_cnt : Nat)
        (core_cnt : Option (List Nat)) (cb : Option (List Bool)),
      (∀ n, bit_test (sequential_pick cl avail node_cnt core_cnt cb).avail n
          = (bit_test avail n
             && !(decide (n ∈ (sequential_pick cl avail node_cnt core_cnt cb).examined))))
      ∧ (∀ bm, (sequential_pick cl avail node_cnt core_cnt cb).res = some bm →
          ∀ n, bit_test bm n = true
            → n ∈ (sequential_pick cl avail node_cnt core_cnt cb).examined))
    ∧ (∀ (cl : Cluster) (avail : List Bool) (node_cnt : Nat)
        (core_cnt : Option (List Nat)) (cb : Option (List Bool)),
      (∀ n, bit_test (pick_first_cores cl avail node_cnt core_cnt cb).avail n
          = (bit_test avail n
             && !(decide (n ∈ (pick_first_cores cl avail node_cnt core_cnt cb).examined))))
      ∧ (∀ bm, (pick_first_cores cl avail node_cnt core_cnt cb).res = some bm →
          ∀ n, bit_test bm n = true
            → n ∈ (pick_first_cores cl avail node_cnt core_cnt cb).examined)) := by
  constructor
  · intro cl avail node_cnt core_cnt cb
    cases core_cnt with
    | none =>
      have hloop := seq_full_loop_eq node_cnt avail
      constructor
      · intro n
        simp only [sequential_pick]
        split_ifs with h
        · show bit_test (seq_full_loop avail node_cnt).2 n
            = (bit_test avail n && !(decide (n ∈ (seq_full_loop avail node_cnt).1)))
          rw [hloop]
          exact bit_test_foldl_clear _ avail n
        · show bit_test (seq_full_loop avail node_cnt).2 n
            = (bit_test avail n && !(decide (n ∈ (seq_full_loop avail node_cnt).1)))
          rw [hloop]
          exact bit_test_foldl_clear _ avail n
      · intro bm hbm n hn
        simp only [sequential_pick] at hbm ⊢
        split_ifs at hbm with h
        · simp only [Option.some.injEq] at hbm
          subst hbm
          rw [bit_test_foldl_set, bit_test_alloc] at hn
          simp only [Bool.false_or, Bool.and_eq_true, decide_eq_true_eq] at hn
          simp only [h, if_pos]
          exact hn.1
    | some l =>
      have hfr := seq_part_loop_frame cl node_cnt l
        (bit_not (spec_core_filter cl avail cb)) (seq_part_cpn0 node_cnt l)
        (bit_set_count avail + 1)
        { total := seq_part_total0 avail node_cnt l, avail := avail,
          core_bitmap := bit_and (spec_core_filter cl avail cb)
            (bit_not (spec_core_filter cl avail cb)),
          sp := bit_alloc avail.length,
          node_list_inx := 0, extra := seq_part_extra0 node_cnt l, examined := [] }
        avail (by intro n; simp) (by intro n hsp; rw [bit_test_alloc] at hsp; simp at hsp)
      have hfin : seq_part_final cl avail node_cnt l cb
          = seq_part_loop cl node_cnt l (bit_not (spec_core_filter cl avail cb))
            (seq_part_cpn0 node_cnt l) (bit_set_count avail + 1)
            { total := seq_part_total0 avail node_cnt l, avail := avail,
              core_bitmap := bit_and (spec_core_filter cl avail cb)
                (bit_not (spec_core_filter cl avail cb)),
              sp := bit_alloc avail.length,
              node_list_inx := 0, extra := seq_part_extra0 node_cnt l,
              examined := [] } := rfl
      constructor
      · intro n
        simp only [sequential_pick]
        split_ifs with h
        · show bit_test (seq_part_final cl avail node_cnt l cb).avail n
            = (bit_test avail n
               && !(decide (n ∈ (seq_part_final cl avail node_cnt l cb).examined)))
          rw [hfin]
          exact hfr.1 n
        · show bit_test (seq_part_final cl avail node_cnt l cb).avail n
            = (bit_test avail n
               && !(decide (n ∈ (seq_part_final cl avail node_cnt l cb).examined)))
          rw [hfin]
          exact hfr.1 n
      · intro bm hbm n hn
        simp only [sequential_pick] at hbm ⊢
        split_ifs at hbm with h
        simp only [Option.some.injEq] at hbm
        subst hbm
        simp only [h, if_neg]
        show n ∈ (seq_part_final cl avail node_cnt l cb).examined
        rw [hfin] at hn ⊢
        exact hfr.2 n hn
  · intro cl avail node_cnt core_cnt cb
    cases core_cnt with
    | none =>
      constructor
      · intro n
        show bit_test avail n = (bit_test avail n && !(decide (n ∈ ([] : List Nat))))
        simp
      · intro bm hbm
        exact absurd hbm (by simp [pick_first_cores])
    | some l =>
      by_cases h0 : l.getD 0 0 = 0
      · constructor
        · intro n
          simp only [pick_first_cores]
          rw [if_pos h0]
          show bit_test avail n = (bit_test avail n && !(decide (n ∈ ([] : List Nat))))
          simp
        · intro bm hbm
          simp only [pick_first_cores] at hbm
          rw [if_pos h0] at hbm
          exact absurd hbm (by simp)
      · have hfr := pick_first_loop_frame cl l
          (match bit_ffs avail, bit_fls avail with
            | some f, some e => List.range' f (e + 1 - f)
            | _, _ => [])
          { tmpcore := bit_not (spec_core_filter cl avail cb),
            core_bitmap := bit_and (spec_core_filter cl avail cb)
              (bit_not (spec_core_filter cl avail cb)),
            sp := bit_alloc avail.length,
            avail := avail, node_offset := 0, examined := [] }
          avail (by intro n; simp)
          (by intro n hsp; rw [bit_test_alloc] at hsp; simp at hsp)
        have hfin : pick_first_final cl avail l cb
            = pick_first_loop cl l
              (match bit_ffs avail, bit_fls avail with
                | some f, some e => List.range' f (e + 1 - f)
                | _, _ => [])
              { tmpcore := bit_not (spec_core_filter cl avail cb),
                core_bitmap := bit_and (spec_core_filter cl avail cb)
                  (bit_not (spec_core_filter cl avail cb)),
                sp := bit_alloc avail.length,
                avail := avail, node_offset := 0, examined := [] } := rfl
        constructor
        · intro n
          simp only [pick_first_cores]
          rw [if_neg h0]
          split_ifs with h1
          · show bit_test (pick_first_final cl avail l cb).avail n
              = (bit_test avail n
                 && !(decide (n ∈ (pick_first_final cl avail l cb).examined)))
            rw [hfin]
            exact hfr.1 n
          · show bit_test (pick_first_final cl avail l cb).avail n
              = (bit_test avail n
                 && !(decide (n ∈ (pick_first_final cl avail l cb).examined)))
            rw [hfin]
            exact hfr.1 n
        · intro bm hbm n hn
          simp only [pick_first_cores] at hbm ⊢
          rw [if_neg h0] at hbm ⊢
          split_ifs at hbm with h1
          simp only [Option.some.injEq] at hbm
          subst hbm
          simp only [h1, if_neg]
          show n ∈ (pick_first_final cl avail l cb).examined
          rw [hfin] at hn ⊢
          exact hfr.2 n hn

/-- Witness for C10: node 0 is examined and cleared from avail by the
full-node sequential pick, and the successful result reports only examined
nodes. -/
theorem pickers_mutate_avail_witness :
    (bit_test (sequential_pick ⟨[1], []⟩ [true] 1 none none).avail 0
      = (bit_test [true] 0
         && !(decide (0 ∈ (sequential_pick ⟨[1], []⟩ [true] 1 none none).examined))))
    ∧ 0 ∈ (sequential_pick ⟨[1], []⟩ [true] 1 none none).examined :=
  ⟨(pickers_mutate_avail.1 ⟨[1], []⟩ [true] 1 none none).1 0,
   (pickers_mutate_avail.1 ⟨[1], []⟩ [true] 1 none none).2
     ((sequential_pick ⟨[1], []⟩ [true] 1 none none).res.getD [])
     (by decide) 0 (by decide)⟩

/-! ### First-cores picker lemmas (C6) -/

theorem pfc_take_zero (tmpcore : List Bool) (coff jnx : Nat) (cb : List Bool) :
    pfc_take tmpcore coff 0 jnx cb = (jnx, cb) := rfl

theorem pfc_take_succ_false (tmpcore : List Bool) (coff k jnx : Nat)
    (cb : List Bool) (htc : bit_test tmpcore (coff + jnx) = false) :
    pfc_take tmpcore coff (k+1) jnx cb = (jnx, cb) := by
  rw [pfc_take, htc]
  simp

theorem pfc_take_succ_true (tmpcore : List Bool) (coff k jnx : Nat)
    (cb : List Bool) (htc : bit_test tmpcore (coff + jnx) = true) :
    pfc_take tmpcore coff (k+1) jnx cb
      = pfc_take tmpcore coff k (jnx+1) (bit_set cb (coff + jnx)) := by
  rw [pfc_take, htc]
  simp

theorem pfc_take_spec (tmpcore : List Bool) (coff : Nat) :
    ∀ (k jnx : Nat) (cb : List Bool),
      coff + jnx + k ≤ cb.length →
      ((pfc_take tmpcore coff k jnx cb).2.length = cb.length
      ∧ jnx ≤ (pfc_take tmpcore coff k jnx cb).1
      ∧ (pfc_take tmpcore coff k jnx cb).1 ≤ jnx + k
      ∧ (∀ g, ¬ (coff + jnx ≤ g ∧ g < coff + (pfc_take tmpcore coff k jnx cb).1) →
          bit_test (pfc_take tmpcore coff k jnx cb).2 g = bit_test cb g)
      ∧ (∀ g, coff + jnx ≤ g → g < coff + (pfc_take tmpcore coff k jnx cb).1 →
          bit_test (pfc_take tmpcore coff k jnx cb).2 g = true)) := by
  intro k
  induction k with
  | zero =>
    intro jnx cb hb
    rw [pfc_take_zero]
    exact ⟨rfl, by omega, by omega, fun g _ => rfl, fun g h1 h2 => by omega⟩
  | succ k ih =>
    intro jnx cb hb
    cases htc : bit_test tmpcore (coff + jnx) with
    | false =>
      rw [pfc_take_succ_false tmpcore coff k jnx cb htc]
      exact ⟨rfl, by omega, by omega, fun g _ => rfl, fun g h1 h2 => by omega⟩
    | true =>
      rw [pfc_take_succ_true tmpcore coff k jnx cb htc]
      have hb2 : coff + (jnx + 1) + k ≤ (bit_set cb (coff + jnx)).length := by
        rw [length_bit_set]; omega
      obtain ⟨l1, l2, l3, l4, l5⟩ := ih (jnx + 1) (bit_set cb (coff + jnx)) hb2
      have hsetbit : bit_test (bit_set cb (coff + jnx)) (coff + jnx) = true := by
        rw [bit_test_set_eq]
        have : coff + jnx < cb.length := by omega
        simp [this]
      refine ⟨by rw [l1, length_bit_set], by omega, by omega, ?_, ?_⟩
      · intro g hg
        rw [l4 g (by omega), bit_test_set_eq]
        have hne : ¬ (g = coff + jnx) := by omega
        simp [hne]
      · intro g h1 h2
        by_cases hgj : g = coff + jnx
        · subst hgj
          by_cases hin : coff + (jnx + 1) ≤ coff + jnx ∧
              coff + jnx < coff + (pfc_take tmpcore coff k (jnx+1) (bit_set cb (coff + jnx))).1
          · exact l5 _ hin.1 hin.2
          · rw [l4 _ hin]
            exact hsetbit
        · exact l5 g (by omega) h2

theorem bit_set_count_zero_of_false (xs : List Bool)
    (h : ∀ i, bit_test xs i = false) : bit_set_count xs = 0 := by
  induction xs with
  | nil => simp [bit_set_count]
  | cons x ys ih =>
    have hx : x = false := by simpa [bit_test_cons] using h 0
    subst hx
    rw [bit_set_count_cons, ih (fun i => by simpa [bit_test_cons] using h (i+1))]
    simp

theorem count_take_of_high_false (sp : List Bool) (inx : Nat)
    (h : ∀ m, inx ≤ m → bit_test sp m = false) :
    bit_set_count (sp.take inx) = bit_set_count sp := by
  induction sp generalizing inx with
  | nil => simp
  | cons x xs ih =>
    cases inx with
    | zero =>
      rw [List.take_zero]
      rw [bit_set_count_zero_of_false (x :: xs) (fun i => h i (by omega))]
      rfl
    | succ m =>
      simp only [List.take_succ_cons, bit_set_count_cons]
      rw [ih m (fun j hj => by simpa [bit_test_cons] using h (j+1) (by omega))]

theorem take_set_of_le (sp : List Bool) (n inx : Nat) (v : Bool) (h : n ≤ inx) :
    (sp.set inx v).take n = sp.take n := by
  induction sp generalizing n inx with
  | nil => simp
  | cons x xs ih =>
    cases n with
    | zero => simp
    | succ m =>
      cases inx with
      | zero => omega
      | succ i =>
        simp only [List.set, List.take_succ_cons]
        rw [ih m i (by omega)]

theorem pick_first_loop_locality (cl : Cluster) (l : List Nat) :
    ∀ (idxs : List Nat) (st : pfc_state),
      List.Pairwise (· < ·) idxs →
      (∀ m ∈ idxs, m < st.sp.length) →
      st.core_bitmap.length = total_cores cl →
      st.node_offset = bit_set_count st.sp →
      (∀ n, bit_test st.sp n = true → ∀ m ∈ idxs, n < m) →
      (∀ m ∈ idxs, ∀ g, cr_get_coremap_offset cl m ≤ g →
          g < cr_get_coremap_offset cl (m+1) →
          bit_test st.core_bitmap g = false) →
      (∀ n, n < cl.cores.length → bit_test st.sp n = true →
        ∀ c, c < cr_node_num_cores cl n →
          bit_test st.core_bitmap (cr_get_coremap_offset cl n + c)
            = decide (c < l.getD (bit_set_count (st.sp.take n)) 0)) →
      (∀ n, n < cl.cores.length →
          bit_test (pick_first_loop cl l idxs st).sp n = true →
        ∀ c, c < cr_node_num_cores cl n →
          bit_test (pick_first_loop cl l idxs st).core_bitmap
              (cr_get_coremap_offset cl n + c)
            = decide (c < l.getD
                (bit_set_count ((pick_first_loop cl l idxs st).sp.take n)) 0)) := by
  intro idxs
  induction idxs with
  | nil =>
    intro st _ _ _ _ _ _ k4
    exact k4
  | cons inx rest ih =>
    intro st hpw hbnds k1 k3 k5 k6 k4
    rw [List.pairwise_cons] at hpw
    have hinxlen : inx < st.sp.length := hbnds inx (by simp)
    have hspinx : bit_test st.sp inx = false := by
      cases hb : bit_test st.sp inx
      · rfl
      · exact absurd (k5 inx hb inx (by simp)) (by omega)
    have hsphigh : ∀ m, inx ≤ m → bit_test st.sp m = false := by
      intro m hm
      cases hb : bit_test st.sp m
      · rfl
      · exact absurd (k5 m hb inx (by simp)) (by omega)
    have hmono := cr_get_coremap_offset_mono cl (show inx ≤ inx + 1 by omega)
    have hlc : (if cr_get_coremap_offset cl (inx + 1) - cr_get_coremap_offset cl inx
        < l.getD st.node_offset 0 then 0 else l.getD st.node_offset 0)
        ≤ cr_get_coremap_offset cl (inx + 1) - cr_get_coremap_offset cl inx := by
      split_ifs with h
      · omega
      · omega
    have hbound : cr_get_coremap_offset cl inx + 0 +
        (if cr_get_coremap_offset cl (inx + 1) - cr_get_coremap_offset cl inx
          < l.getD st.node_offset 0 then 0 else l.getD st.node_offset 0)
        ≤ st.core_bitmap.length := by
      have := off_le_total cl (inx + 1)
      omega
    obtain ⟨p1, p2, p3, p4, p5⟩ := pfc_take_spec st.tmpcore
      (cr_get_coremap_offset cl inx)
      (if cr_get_coremap_offset cl (inx + 1) - cr_get_coremap_offset cl inx
        < l.getD st.node_offset 0 then 0 else l.getD st.node_offset 0)
      0 st.core_bitmap hbound
    have hwr : ∀ m, m ≠ inx → m < cl.cores.length ∨ True → ∀ g,
        cr_get_coremap_offset cl m ≤ g → g < cr_get_coremap_offset cl (m+1) →
        bit_test (pfc_take st.tmpcore (cr_get_coremap_offset cl inx)
          (if cr_get_coremap_offset cl (inx + 1) - cr_get_coremap_offset cl inx
            < l.getD st.node_offset 0 then 0 else l.getD st.node_offset 0)
          0 st.core_bitmap).2 g = bit_test st.core_bitmap g := by
      intro m hm _ g hg1 hg2
      apply p4
      intro hcontra
      obtain ⟨ha, hb⟩ := hcontra
      have hinr : g < cr_get_coremap_offset cl (inx + 1) := by
        have hr1le : (pfc_take st.tmpcore (cr_get_coremap_offset cl inx)
            (if cr_get_coremap_offset cl (inx + 1) - cr_get_coremap_offset cl inx
              < l.getD st.node_offset 0 then 0 else l.getD st.node_offset 0)
            0 st.core_bitmap).1 ≤
            cr_get_coremap_offset cl (inx + 1) - cr_get_coremap_offset cl inx := by
          omega
        omega
      exact coremap_interval_disjoint cl m inx g hm hg1 hg2 (by omega) hinr
    rw [pick_first_loop]
    by_cases hskip : (pfc_take st.tmpcore (cr_get_coremap_offset cl inx)
        (if cr_get_coremap_offset cl (inx + 1) - cr_get_coremap_offset cl inx
            < l.getD st.node_offset 0 then 0 else l.getD st.node_offset 0)
        0 st.core_bitmap).1 < l.getD st.node_offset 0
    · rw [if_pos hskip]
      apply ih
      · exact hpw.2
      · intro m hm
        exact hbnds m (by simp [hm])
      · show (pfc_take st.tmpcore (cr_get_coremap_offset cl inx)
            (if cr_get_coremap_offset cl (inx + 1) - cr_get_coremap_offset cl inx
              < l.getD st.node_offset 0 then 0 else l.getD st.node_offset 0)
            0 st.core_bitmap).2.length = total_cores cl
        rw [p1, k1]
      · exact k3
      · intro n hn m hm
        exact k5 n hn m (by simp [hm])
      · intro m hm g hg1 hg2
        have hne : m ≠ inx := by
          have := hpw.1 m hm
          omega
        rw [hwr m hne (Or.inr trivial) g hg1 hg2]
        exact k6 m (by simp [hm]) g hg1 hg2
      · intro n hn hsp c hc
        have hne : n ≠ inx := by
          intro he
          subst he
          rw [hsp] at hspinx
          exact absurd hspinx (by simp)
        have hg1 : cr_get_coremap_offset cl n ≤ cr_get_coremap_offset cl n + c :=
          Nat.le_add_right _ _
        have hg2 : cr_get_coremap_offset cl n + c < cr_get_coremap_offset cl (n+1) := by
          rw [cr_get_coremap_offset_succ cl n hn]
          omega
        rw [hwr n hne (Or.inl hn) _ hg1 hg2]
        exact k4 n hn hsp c hc
    · rw [if_neg hskip]
      have hreq : (pfc_take st.tmpcore (cr_get_coremap_offset cl inx)
          (if cr_get_coremap_offset cl (inx + 1) - cr_get_coremap_offset cl inx
            < l.getD st.node_offset 0 then 0 else l.getD st.node_offset 0)
          0 st.core_bitmap).1 = l.getD st.node_offset 0 := by
        by_cases hcase : cr_get_coremap_offset cl (inx + 1) - cr_get_coremap_offset cl inx
            < l.getD st.node_offset 0
        · have hif : (if cr_get_coremap_offset cl (inx + 1) - cr_get_coremap_offset cl inx
              < l.getD st.node_offset 0 then 0 else l.getD st.node_offset 0) = 0 :=
            if_pos hcase
          omega
        · have hif : (if cr_get_coremap_offset cl (inx + 1) - cr_get_coremap_offset cl inx
              < l.getD st.node_offset 0 then 0 else l.getD st.node_offset 0)
              = l.getD st.node_offset 0 := if_neg hcase
          omega
      have hrank : bit_set_count ((bit_set st.sp inx).take inx) = st.node_offset := by
        rw [bit_set, take_set_of_le st.sp inx inx true (by omega)]
        rw [count_take_of_high_false st.sp inx hsphigh]
        omega
      have hcount : bit_set_count (bit_set st.sp inx) = bit_set_count st.sp + 1 :=
        bit_set_count_set st.sp inx hspinx hinxlen
      have hk4' : ∀ n, n < cl.cores.length → bit_test (bit_set st.sp inx) n = true →
          ∀ c, c < cr_node_num_cores cl n →
            bit_test (pfc_take st.tmpcore (cr_get_coremap_offset cl inx)
              (if cr_get_coremap_offset cl (inx + 1) - cr_get_coremap_offset cl inx
                < l.getD st.node_offset 0 then 0 else l.getD st.node_offset 0)
              0 st.core_bitmap).2 (cr_get_coremap_offset cl n + c)
              = decide (c < l.getD
                  (bit_set_count ((bit_set st.sp inx).take n)) 0) := by
        intro n hn hsp c hc
        by_cases hni : n = inx
        · subst hni
          rw [hrank]
          have hsucc := cr_get_coremap_offset_succ cl n hn
          by_cases hclt : c < l.getD st.node_offset 0
          · rw [p5 (cr_get_coremap_offset cl n + c) (by omega) (by omega)]
            exact (decide_eq_true hclt).symm
          · rw [p4 (cr_get_coremap_offset cl n + c) (by omega)]
            rw [k6 n (by simp) (cr_get_coremap_offset cl n + c)
              (by omega) (by omega)]
            exact (decide_eq_false hclt).symm
        · have hspn : bit_test st.sp n = true := by
            rw [bit_test_set_eq] at hsp
            rcases Bool.or_eq_true_iff.mp hsp with h1 | h2
            · exact h1
            · simp only [Bool.and_eq_true, decide_eq_true_eq] at h2
              exact absurd h2.1 hni
          have hnlt : n < inx := k5 n hspn inx (by simp)
          have hg2 : cr_get_coremap_offset cl n + c < cr_get_coremap_offset cl (n+1) := by
            rw [cr_get_coremap_offset_succ cl n hn]
            omega
          rw [hwr n hni (Or.inl hn) _ (Nat.le_add_right _ _) hg2]
          rw [bit_set, take_set_of_le st.sp n inx true (by omega)]
          exact k4 n hn hspn c hc
      by_cases hbrk : l.getD (st.node_offset + 1) 0 = 0
      · rw [if_pos hbrk]
        exact hk4'
      · rw [if_neg hbrk]
        apply ih
        · exact hpw.2
        · intro m hm
          show m < (bit_set st.sp inx).length
          rw [length_bit_set]
          exact hbnds m (by simp [hm])
        · show (pfc_take st.tmpcore (cr_get_coremap_offset cl inx)
              (if cr_get_coremap_offset cl (inx + 1) - cr_get_coremap_offset cl inx
                < l.getD st.node_offset 0 then 0 else l.getD st.node_offset 0)
              0 st.core_bitmap).2.length = total_cores cl
          rw [p1, k1]
        · show st.node_offset + 1 = bit_set_count (bit_set st.sp inx)
          rw [hcount]
          omega
        · intro n hn m hm
          rw [bit_test_set_eq] at hn
          rcases Bool.or_eq_true_iff.mp hn with h1 | h2
          · have := k5 n h1 inx (by simp)
            have := hpw.1 m hm
            omega
          · simp only [Bool.and_eq_true, decide_eq_true_eq] at h2
            obtain ⟨rfl, -⟩ := h2
            exact hpw.1 m hm
        · intro m hm g hg1 hg2
          have hne : m ≠ inx := by
            have := hpw.1 m hm
            omega
          rw [hwr m hne (Or.inr trivial) g hg1 hg2]
          exact k6 m (by simp [hm]) g hg1 hg2
        · exact hk4'

theorem bit_fls_lt_len (b : List Bool) (e : Nat) (h : bit_fls b = some e) :
    e < b.length := by
  unfold bit_fls at h
  cases hf : bit_ffs b.reverse with
  | none => rw [hf] at h; simp at h
  | some i =>
    rw [hf] at h
    simp only [Option.map_some', Option.some.injEq] at h
    have hne : b.length ≠ 0 := by
      intro h0
      have : b = [] := List.eq_nil_of_length_eq_zero h0
      subst this
      simp [bit_ffs] at hf
    omega

/-- C6: on success of _pick_first_cores, for each selected node n (being the
k-th selected node in ascending index order, k the popcount of the result
below n), the output core bitmap holds exactly the first core_cnt[k] local
cores of n: local core c of n is set iff c < core_cnt[k]. -/
theorem pick_first_cores_locality (cl : Cluster) (avail : List Bool)
    (node_cnt : Nat) (l : List Nat) (cb : Option (List Bool))
    (hcb : ∀ x, cb = some x → x.length = total_cores cl) :
    ∀ bm, (pick_first_cores cl avail node_cnt (some l) cb).res = some bm →
      ∀ n, n < cl.cores.length → bit_test bm n = true →
        ∀ c, c < cr_node_num_cores cl n →
          bit_test ((pick_first_cores cl avail node_cnt (some l) cb).core_bitmap.getD [])
              (cr_get_coremap_offset cl n + c)
            = decide (c < l.getD (bit_set_count (bm.take n)) 0) := by
  intro bm hbm n hn hsel c hc
  simp only [pick_first_cores] at hbm ⊢
  by_cases h0 : l.getD 0 0 = 0
  · rw [if_pos h0] at hbm
    exact absurd hbm (by simp)
  · rw [if_neg h0] at hbm ⊢
    split_ifs at hbm with h1
    simp only [Option.some.injEq] at hbm
    subst hbm
    rw [if_neg h1]
    show bit_test (pick_first_final cl avail l cb).core_bitmap _ = _
    have hfin : pick_first_final cl avail l cb
        = pick_first_loop cl l
          (match bit_ffs avail, bit_fls avail with
            | some f, some e => List.range' f (e + 1 - f)
            | _, _ => [])
          { tmpcore := bit_not (spec_core_filter cl avail cb),
            core_bitmap := bit_and (spec_core_filter cl avail cb)
              (bit_not (spec_core_filter cl avail cb)),
            sp := bit_alloc avail.length,
            avail := avail, node_offset := 0, examined := [] } := rfl
    have hpw : List.Pairwise (· < ·)
        (match bit_ffs avail, bit_fls avail with
          | some f, some e => List.range' f (e + 1 - f)
          | _, _ => []) := by
      cases bit_ffs avail with
      | none => simp
      | some f =>
        cases bit_fls avail with
        | none => simp
        | some e => exact List.pairwise_lt_range' f (e + 1 - f)
    have hbnds : ∀ m ∈ (match bit_ffs avail, bit_fls avail with
        | some f, some e => List.range' f (e + 1 - f)
        | _, _ => []), m < (bit_alloc avail.length).length := by
      cases hff : bit_ffs avail with
      | none => simp
      | some f =>
        cases hfl : bit_fls avail with
        | none => simp
        | some e =>
          intro m hm
          rw [List.mem_range'_1] at hm
          have := bit_fls_lt_len avail e hfl
          rw [length_bit_alloc]
          omega
    rw [hfin]
    refine pick_first_loop_locality cl l _ _ hpw hbnds ?_ ?_ ?_ ?_ ?_ n hn hsel c hc
    · show (bit_and (spec_core_filter cl avail cb)
          (bit_not (spec_core_filter cl avail cb))).length = total_cores cl
      rw [length_and_not_self]
      exact length_spec_core_filter cl avail cb hcb
    · show 0 = bit_set_count (bit_alloc avail.length)
      rw [bit_set_count_alloc]
    · intro m hsp
      rw [bit_test_alloc] at hsp
      exact absurd hsp (by simp)
    · intro m _ g _ _
      exact bit_test_and_not_self _ g
    · intro m _ hsp
      rw [bit_test_alloc] at hsp
      exact absurd hsp (by simp)

/-- Witness for C6: one 2-core node (core specialized so it is reservable),
core_cnt = [1]; node 0 is selected and exactly its first core is set. -/
theorem pick_first_cores_locality_witness :
    bit_test ((pick_first_cores ⟨[2], [true, true]⟩ [true] 1 (some [1]) none).core_bitmap.getD [])
        (cr_get_coremap_offset ⟨[2], [true, true]⟩ 0 + 0)
      = decide (0 < [1].getD (bit_set_count
          (((pick_first_cores ⟨[2], [true, true]⟩ [true] 1 (some [1]) none).res.getD []).take 0)) 0) :=
  pick_first_cores_locality ⟨[2], [true, true]⟩ [true] 1 [1] none
    (fun x hx => absurd hx (by simp))
    ((pick_first_cores ⟨[2], [true, true]⟩ [true] 1 (some [1]) none).res.getD [])
    (by decide) 0 (by decide) (by decide) 0 (by decide)

/-! ## RowPacker (_build_row_bitmaps)

The job-resource primitives (add_job_to_cores, remove_job_from_cores,
job_fits_into_cores) and the cons_common helpers (dup/destroy row data,
add_job_to_row, sort_part_rows) live outside the given sources and are
modelled from spec section 4.3.  A row's null `row_bitmap` is represented
as an all-zero bitmap, which is behaviourally identical in every use the
repacker makes of it. -/

/-! ### RowPacker lemmas (C1) -/

theorem bit_test_clear_bitmap (b : List Bool) (g : Nat) :
    bit_test (clear_bitmap b) g = false := by
  induction b generalizing g with
  | nil => simp [clear_bitmap, bit_test]
  | cons x xs ih =>
    cases g with
    | zero => simp [clear_bitmap, bit_test_cons]
    | succ g' => simpa [clear_bitmap, bit_test_cons] using ih g'

theorem length_clear_bitmap (b : List Bool) : (clear_bitmap b).length = b.length := by
  simp [clear_bitmap]

theorem length_job_proj (cl : Cluster) (job : job_resources) :
    (job_proj cl job).length = total_cores cl := by
  simp [job_proj]

theorem bit_test_job_proj (cl : Cluster) (job : job_resources) (g : Nat)
    (hg : g < total_cores cl) :
    bit_test (job_proj cl job) g = job_proj_bit cl job g := by
  rw [job_proj, bit_test_range_map, if_pos hg]

theorem length_add_job_to_cores (cl : Cluster) (job : job_resources)
    (z : List Bool) (hz : z.length = total_cores cl) :
    (add_job_to_cores cl job z).length = total_cores cl := by
  simp [add_job_to_cores, bit_or, length_job_proj, hz]

theorem bit_test_fold_add (cl : Cluster) (jobs : List job_resources)
    (z : List Bool) (hz : z.length = total_cores cl) (g : Nat)
    (hg : g < total_cores cl) :
    bit_test (jobs.foldl (fun bm j0 => add_job_to_cores cl j0 bm) z) g
      = (bit_test z g || jobs.any (fun j0 => job_proj_bit cl j0 g)) := by
  induction jobs generalizing z with
  | nil => simp
  | cons j0 js ih =>
    rw [List.foldl_cons, ih (add_job_to_cores cl j0 z)
      (length_add_job_to_cores cl j0 z hz)]
    have h1 : bit_test (add_job_to_cores cl j0 z) g
        = (bit_test z g || job_proj_bit cl j0 g) := by
      rw [add_job_to_cores, bit_test_or z _ g (by omega)
        (by rw [length_job_proj]; omega), bit_test_job_proj cl j0 g hg]
    rw [h1]
    simp [Bool.or_assoc]

theorem getD_map_row (f : part_row_data → part_row_data) (p : List part_row_data)
    (k : Nat) (hk : k < p.length) (d : part_row_data) :
    (p.map f).getD k d = f (p.getD k d) := by
  induction p generalizing k with
  | nil => simp at hk
  | cons r rs ih =>
    cases k with
    | zero => simp [List.getD]
    | succ k' =>
      simp only [List.length_cons, Nat.succ_lt_succ_iff] at hk
      simpa [List.getD] using ih k' hk

theorem getD_mem_row (p : List part_row_data) (k : Nat) (hk : k < p.length)
    (d : part_row_data) : p.getD k d ∈ p := by
  induction p generalizing k with
  | nil => simp at hk
  | cons r rs ih =>
    cases k with
    | zero => simp [List.getD]
    | succ k' =>
      simp only [List.length_cons, Nat.succ_lt_succ_iff] at hk
      exact List.mem_cons_of_mem r (by simpa [List.getD] using ih k' hk)

/-- C1: when the multi-row repack leaves a dangling job, build_row_bitmaps
restores the pre-call layout: every row keeps its job list, and each row
bitmap is rebuilt as exactly the union of its surviving jobs' projected
cores (so the partition equals the pre-call one with the removed job's
cores gone). -/
theorem build_row_bitmaps_repack_stability (cl : Cluster)
    (p : List part_row_data) (j : Option job_resources)
    (hmulti : 2 ≤ p.length)
    (hjobs : (p.map (fun r => r.job_list.length)).sum ≠ 0)
    (hlen : ∀ r ∈ p, r.row_bitmap.length = total_cores cl)
    (hdang : repack_dangling cl p = true) :
    (build_row_bitmaps cl p j).length = p.length
    ∧ ∀ k, k < p.length →
        ((build_row_bitmaps cl p j).getD k ⟨[], []⟩).job_list
          = (p.getD k ⟨[], []⟩).job_list
        ∧ ∀ g, g < total_cores cl →
            bit_test ((build_row_bitmaps cl p j).getD k ⟨[], []⟩).row_bitmap g
              = (p.getD k ⟨[], []⟩).job_list.any (fun job => job_proj_bit cl job g) := by
  have hres : build_row_bitmaps cl p j = p.map (rebuild_row cl) := by
    match p, hmulti with
    | a :: b :: rest, _ =>
      show (if ((a :: b :: rest).map (fun r => r.job_list.length)).sum = 0 then _
        else if repack_dangling cl (a :: b :: rest) then _ else _) = _
      rw [if_neg hjobs, if_pos hdang]
  rw [hres]
  refine ⟨by simp, ?_⟩
  intro k hk
  rw [getD_map_row (rebuild_row cl) p k hk]
  refine ⟨rfl, ?_⟩
  intro g hg
  show bit_test ((p.getD k ⟨[], []⟩).job_list.foldl
      (fun bm j0 => add_job_to_cores cl j0 bm)
      (clear_bitmap (p.getD k ⟨[], []⟩).row_bitmap)) g = _
  rw [bit_test_fold_add cl _ _ ?_ g hg]
  · rw [bit_test_clear_bitmap]
    simp
  · rw [length_clear_bitmap]
    exact hlen _ (getD_mem_row p k hk _)

/-- Witness for C1: one 1-core node, three one-core jobs spread over two
rows; the repack cannot place all three, so the layout is restored. -/
theorem build_row_bitmaps_repack_stability_witness :
    ((build_row_bitmaps c1_cl c1_p none).getD 0 ⟨[], []⟩).job_list
      = (c1_p.getD 0 ⟨[], []⟩).job_list
    ∧ bit_test ((build_row_bitmaps c1_cl c1_p none).getD 0 ⟨[], []⟩).row_bitmap 0
      = (c1_p.getD 0 ⟨[], []⟩).job_list.any (fun job => job_proj_bit c1_cl job 0) :=
  ⟨((build_row_bitmaps_repack_stability c1_cl c1_p none (by decide) (by decide)
      (by decide) (by decide)).2 0 (by decide)).1,
   ((build_row_bitmaps_repack_stability c1_cl c1_p none (by decide) (by decide)
      (by decide) (by decide)).2 0 (by decide)).2 0 (by decide)⟩

/-! ### TopologyPicker lemmas -/

theorem bit_test_or_elim (a b : List Bool) (n : Nat)
    (h : bit_test (bit_or a b) n = true) :
    bit_test a n = true ∨ bit_test b n = true := by
  induction a generalizing b n with
  | nil => simp [bit_or, bit_test] at h
  | cons x xs ih =>
    cases b with
    | nil => simp [bit_or, bit_test] at h
    | cons y ys =>
      cases n with
      | zero =>
        simp only [bit_or, List.zipWith_cons_cons, bit_test_cons] at h ⊢
        exact Bool.or_eq_true_iff.mp h
      | succ m =>
        simp only [bit_or, List.zipWith_cons_cons, bit_test_cons] at h ⊢
        exact ih ys m h

theorem bit_test_clear_elim (b : List Bool) (i n : Nat)
    (h : bit_test (bit_clear b i) n = true) : bit_test b n = true := by
  rw [bit_test_clear, Bool.and_eq_true] at h
  exact h.1

theorem bit_test_set_elim (b : List Bool) (i n : Nat)
    (h : bit_test (bit_set b i) n = true) : bit_test b n = true ∨ n = i := by
  rw [bit_test_set_eq] at h
  rcases Bool.or_eq_true_iff.mp h with h1 | h2
  · exact Or.inl h1
  · rw [Bool.and_eq_true] at h2
    exact Or.inr (of_decide_eq_true h2.1)

theorem bit_super_set_elim (a b : List Bool) (n : Nat)
    (hs : bit_super_set a b = true) (h : bit_test a n = true) :
    bit_test b n = true := by
  have hn : n < a.length := bit_test_true_lt_len a n h
  have := (List.all_eq_true.mp hs) n (List.mem_range.mpr hn)
  rw [h] at this
  simpa using this

theorem sw_get_map (f : sw_ent → sw_ent) (sws : List sw_ent) (j : Nat) :
    sw_get (sws.map f) j = (sws[j]?.map f).getD ⟨0, [], 0, 0⟩ := by
  rw [sw_get, List.getD_eq_getElem?_getD, List.getElem?_map]

theorem prune_node_all_shrink (i c : Nat) (sws : List sw_ent) (j n : Nat)
    (h : bit_test (sw_get (prune_node_all i c sws) j).bmap n = true) :
    bit_test (sw_get sws j).bmap n = true := by
  rw [prune_node_all, sw_get_map] at h
  cases hj : sws[j]? with
  | none => rw [hj] at h; simp [bit_test] at h
  | some e =>
    rw [hj] at h
    have he : sw_get sws j = e := by
      rw [sw_get, List.getD_eq_getElem?_getD, hj]; rfl
    rw [he]
    simp only [Option.map_some', Option.getD_some] at h
    by_cases hb : bit_test e.bmap i
    · rw [if_pos hb] at h
      exact bit_test_clear_elim e.bmap i n h
    · rw [if_neg hb] at h
      exact h

theorem prune_step_shrink (cl : Cluster) (aggr : Bool) (core_cnt : List Nat)
    (cpn j0 i : Nat) (sws : List sw_ent) (cb : List Bool) (m j n : Nat)
    (h : bit_test (sw_get (prune_step cl aggr core_cnt cpn j0 i sws cb m).1 j).bmap n = true) :
    bit_test (sw_get sws j).bmap n = true := by
  rw [prune_step] at h
  by_cases h0 : bit_test (sw_get sws j0).bmap i = false
  · rw [if_pos h0] at h; exact h
  · rw [if_neg h0] at h
    cases aggr with
    | true =>
      rw [if_pos rfl] at h
      by_cases hc : (get_avail_core_in_node cl (some cb) i cpn).1 < cpn
      · rw [if_pos hc] at h
        exact prune_node_all_shrink i _ sws j n h
      · rw [if_neg hc] at h; exact h
    | false =>
      rw [if_neg (by simp)] at h
      by_cases hc : (get_avail_core_in_node cl (some cb) i cpn).1 < core_cnt.getD m 0
      · rw [if_pos hc] at h
        exact prune_node_all_shrink i _ sws j n h
      · rw [if_neg hc] at h
        by_cases hz : core_cnt.getD m 0 ≠ 0
        · rw [if_pos hz] at h; exact h
        · rw [if_neg hz] at h; exact h

theorem prune_switch_fold_shrink (cl : Cluster) (aggr : Bool) (core_cnt : List Nat)
    (cpn j0 : Nat) (j n : Nat) :
    ∀ (idxs : List Nat) (st : List sw_ent × List Bool × Nat),
      bit_test (sw_get (idxs.foldl
        (fun acc i => prune_step cl aggr core_cnt cpn j0 i acc.1 acc.2.1 acc.2.2) st).1 j).bmap n = true →
      bit_test (sw_get st.1 j).bmap n = true := by
  intro idxs
  induction idxs with
  | nil => intro st h; exact h
  | cons i rest ih =>
    intro st h
    have h2 := ih _ h
    exact prune_step_shrink cl aggr core_cnt cpn j0 i st.1 st.2.1 st.2.2 j n h2

theorem prune_switch_shrink (cl : Cluster) (aggr : Bool) (core_cnt : List Nat)
    (cpn j0 : Nat) (st : List sw_ent × List Bool × Nat) (j n : Nat)
    (h : bit_test (sw_get (prune_switch cl aggr core_cnt cpn j0 st).1 j).bmap n = true) :
    bit_test (sw_get st.1 j).bmap n = true := by
  rw [prune_switch] at h
  exact prune_switch_fold_shrink cl aggr core_cnt cpn j0 j n _ st h

theorem topo_prune_fold_shrink (cl : Cluster) (aggr : Bool) (core_cnt : List Nat)
    (cpn : Nat) (j n : Nat) :
    ∀ (js : List Nat) (st : List sw_ent × List Bool × Nat),
      bit_test (sw_get (js.foldl
        (fun acc j0 => prune_switch cl aggr core_cnt cpn j0 acc) st).1 j).bmap n = true →
      bit_test (sw_get st.1 j).bmap n = true := by
  intro js
  induction js with
  | nil => intro st h; exact h
  | cons j0 rest ih =>
    intro st h
    exact prune_switch_shrink cl aggr core_cnt cpn j0 st j n (ih _ h)

theorem topo_prune_shrink (cl : Cluster) (aggr : Bool) (core_cnt : List Nat)
    (cpn count : Nat) (sws : List sw_ent) (cb : List Bool) (j n : Nat)
    (h : bit_test (sw_get (topo_prune cl aggr core_cnt cpn count sws cb).1 j).bmap n = true) :
    bit_test (sw_get sws j).bmap n = true := by
  rw [topo_prune] at h
  exact topo_prune_fold_shrink cl aggr core_cnt cpn j n _ _ h

theorem prune_node_all_len (i c : Nat) (sws : List sw_ent) :
    (prune_node_all i c sws).length = sws.length := by
  simp [prune_node_all]

theorem prune_step_len (cl : Cluster) (aggr : Bool) (core_cnt : List Nat)
    (cpn j0 i : Nat) (sws : List sw_ent) (cb : List Bool) (m : Nat) :
    (prune_step cl aggr core_cnt cpn j0 i sws cb m).1.length = sws.length := by
  rw [prune_step]
  by_cases h0 : bit_test (sw_get sws j0).bmap i = false
  · rw [if_pos h0]
  · rw [if_neg h0]
    cases aggr with
    | true =>
      rw [if_pos rfl]
      by_cases hc : (get_avail_core_in_node cl (some cb) i cpn).1 < cpn
      · rw [if_pos hc]; exact prune_node_all_len i _ sws
      · rw [if_neg hc]
    | false =>
      rw [if_neg (by simp)]
      by_cases hc : (get_avail_core_in_node cl (some cb) i cpn).1 < core_cnt.getD m 0
      · rw [if_pos hc]; exact prune_node_all_len i _ sws
      · rw [if_neg hc]
        by_cases hz : core_cnt.getD m 0 ≠ 0
        · rw [if_pos hz]
        · rw [if_neg hz]

theorem prune_switch_fold_len (cl : Cluster) (aggr : Bool) (core_cnt : List Nat)
    (cpn j0 : Nat) :
    ∀ (idxs : List Nat) (st : List sw_ent × List Bool × Nat),
      (idxs.foldl
        (fun acc i => prune_step cl aggr core_cnt cpn j0 i acc.1 acc.2.1 acc.2.2) st).1.length
        = st.1.length := by
  intro idxs
  induction idxs with
  | nil => intro st; rfl
  | cons i rest ih =>
    intro st
    rw [List.foldl_cons, ih]
    exact prune_step_len cl aggr core_cnt cpn j0 i st.1 st.2.1 st.2.2

theorem topo_prune_fold_len (cl : Cluster) (aggr : Bool) (core_cnt : List Nat)
    (cpn : Nat) :
    ∀ (js : List Nat) (st : List sw_ent × List Bool × Nat),
      (js.foldl (fun acc j0 => prune_switch cl aggr core_cnt cpn j0 acc) st).1.length
        = st.1.length := by
  intro js
  induction js with
  | nil => intro st; rfl
  | cons j0 rest ih =>
    intro st
    rw [List.foldl_cons, ih, prune_switch]
    exact prune_switch_fold_len cl aggr core_cnt cpn j0 _ st

theorem topo_sw_init_len (cl : Cluster) (switches : List switch_record)
    (avail : List Bool) (cb : Option (List Bool)) :
    (topo_sw_init cl switches avail cb).length = switches.length := by
  simp [topo_sw_init]

theorem topo_prune_res_len (cl : Cluster) (switches : List switch_record)
    (node_cnt : Nat) (core_cnt : Option (List Nat)) (avail : List Bool)
    (core_bitmap : Option (List Bool)) :
    (topo_prune_res cl switches node_cnt core_cnt avail core_bitmap).1.length
      = switches.length := by
  rw [topo_prune_res.eq_def]
  cases core_cnt with
  | none =>
    exact topo_sw_init_len cl switches avail _
  | some lc =>
    show (topo_prune _ _ _ _ _ _ _).1.length = _
    rw [topo_prune, topo_prune_fold_len]
    show (topo_sw_init cl switches avail (topo_cb1 cl (some lc) avail core_bitmap)).length
      = switches.length
    exact topo_sw_init_len cl switches avail _

theorem topo_best_fit_fold_lt (sws : List sw_ent) (rn rc : Int) (hasCC : Bool)
    (L : Nat) :
    ∀ (l : List Nat) (acc : Option Nat),
      (∀ b, acc = some b → b < L) → (∀ x ∈ l, x < L) →
      ∀ j, l.foldl (fun best j =>
        if (sw_get sws j).ncnt < rn ∨ (hasCC ∧ (sw_get sws j).ccnt < rc) then best
        else match best with
          | none => some j
          | some b =>
            if (sw_get sws j).level < (sw_get sws b).level ∨
                ((sw_get sws j).level = (sw_get sws b).level ∧
                  (sw_get sws j).ncnt < (sw_get sws b).ncnt)
            then some j else best) acc = some j → j < L := by
  intro l
  induction l with
  | nil => intro acc hacc _ j h; exact hacc j h
  | cons x rest ih =>
    intro acc hacc hl j h
    rw [List.foldl_cons] at h
    refine ih _ ?_ (fun y hy => hl y (List.mem_cons_of_mem x hy)) j h
    intro b hb
    by_cases hskip : (sw_get sws x).ncnt < rn ∨ (hasCC ∧ (sw_get sws x).ccnt < rc)
    · rw [if_pos hskip] at hb; exact hacc b hb
    · rw [if_neg hskip] at hb
      cases acc with
      | none =>
        simp only [Option.some.injEq] at hb
        rw [← hb]; exact hl x (List.mem_cons_self x rest)
      | some b0 =>
        split at hb
        · simp only [Option.some.injEq] at hb
          rw [← hb]; exact hl x (List.mem_cons_self x rest)
        · split at hb
          · simp only [Option.some.injEq] at hb
            rw [← hb]; exact hl x (List.mem_cons_self x rest)
          · simp only [Option.some.injEq] at hb
            rw [← hb]; exact hacc b0 rfl

theorem topo_best_fit_lt (sws : List sw_ent) (rn rc : Int) (hasCC : Bool) (j : Nat)
    (h : topo_best_fit sws rn rc hasCC = some j) : j < sws.length := by
  rw [topo_best_fit] at h
  exact topo_best_fit_fold_lt sws rn rc hasCC sws.length (List.range sws.length) none
    (by intro b hb; cases hb) (by intro x hx; exact List.mem_range.mp hx) j h

theorem pick_best_leaf_fold_inv (sws : List sw_ent) (rn rc : Int) (hasCC : Bool) :
    ∀ (l : List Nat) (acc : Int × Nat × Bool),
      (acc.1 ≠ 0 → (sw_get sws acc.2.1).ncnt = acc.1) →
      ((l.foldl (fun (acc : Int × Nat × Bool) j =>
        let e := sw_get sws j
        if e.ncnt = 0 then acc else
        let suff : Bool := if hasCC then decide (e.ncnt ≥ rn) && decide (e.ccnt ≥ rc)
                           else decide (e.ncnt ≥ rn)
        if acc.1 = 0 ∨ (suff = true ∧ acc.2.2 = false) ∨ (suff = true ∧ e.ncnt < acc.1)
            ∨ (suff = false ∧ e.ncnt > acc.1)
        then (e.ncnt, j, suff)
        else acc) acc).1 ≠ 0 →
        (sw_get sws ((l.foldl (fun (acc : Int × Nat × Bool) j =>
          let e := sw_get sws j
          if e.ncnt = 0 then acc else
          let suff : Bool := if hasCC then decide (e.ncnt ≥ rn) && decide (e.ccnt ≥ rc)
                             else decide (e.ncnt ≥ rn)
          if acc.1 = 0 ∨ (suff = true ∧ acc.2.2 = false) ∨ (suff = true ∧ e.ncnt < acc.1)
              ∨ (suff = false ∧ e.ncnt > acc.1)
          then (e.ncnt, j, suff)
          else acc) acc).2.1)).ncnt =
        (l.foldl (fun (acc : Int × Nat × Bool) j =>
          let e := sw_get sws j
          if e.ncnt = 0 then acc else
          let suff : Bool := if hasCC then decide (e.ncnt ≥ rn) && decide (e.ccnt ≥ rc)
                             else decide (e.ncnt ≥ rn)
          if acc.1 = 0 ∨ (suff = true ∧ acc.2.2 = false) ∨ (suff = true ∧ e.ncnt < acc.1)
              ∨ (suff = false ∧ e.ncnt > acc.1)
          then (e.ncnt, j, suff)
          else acc) acc).1) := by
  intro l
  induction l with
  | nil => intro acc hacc; exact hacc
  | cons x rest ih =>
    intro acc hacc
    rw [List.foldl_cons]
    refine ih _ ?_
    dsimp only
    by_cases h0 : (sw_get sws x).ncnt = 0
    · rw [if_pos h0]; exact hacc
    · rw [if_neg h0]
      generalize (if hasCC then decide ((sw_get sws x).ncnt ≥ rn) && decide ((sw_get sws x).ccnt ≥ rc)
        else decide ((sw_get sws x).ncnt ≥ rn)) = s
      by_cases hcond : acc.1 = 0 ∨ (s = true ∧ acc.2.2 = false)
          ∨ (s = true ∧ (sw_get sws x).ncnt < acc.1) ∨ (s = false ∧ (sw_get sws x).ncnt > acc.1)
      · rw [if_pos hcond]; intro _; rfl
      · rw [if_neg hcond]; exact hacc

theorem pick_best_leaf_ncnt (sws : List sw_ent) (rn rc : Int) (hasCC : Bool) (j : Nat)
    (h : pick_best_leaf sws rn rc hasCC = some j) : (sw_get sws j).ncnt ≠ 0 := by
  rw [pick_best_leaf] at h
  dsimp only at h
  by_cases hz : ((List.range sws.length).foldl (fun (acc : Int × Nat × Bool) j =>
      let e := sw_get sws j
      if e.ncnt = 0 then acc else
      let suff : Bool := if hasCC then decide (e.ncnt ≥ rn) && decide (e.ccnt ≥ rc)
                         else decide (e.ncnt ≥ rn)
      if acc.1 = 0 ∨ (suff = true ∧ acc.2.2 = false) ∨ (suff = true ∧ e.ncnt < acc.1)
          ∨ (suff = false ∧ e.ncnt > acc.1)
      then (e.ncnt, j, suff)
      else acc) ((0 : Int), 0, false)).1 = 0
  · rw [if_pos hz] at h; cases h
  · rw [if_neg hz] at h
    simp only [Option.some.injEq] at h
    rw [← h]
    rw [pick_best_leaf_fold_inv sws rn rc hasCC (List.range sws.length)
      ((0 : Int), 0, false) (by intro hcon; exact absurd rfl hcon) hz]
    exact hz

theorem leaf_restrict_sub (sws : List sw_ent) (bfi j n : Nat)
    (hnc : (sw_get (leaf_restrict sws bfi) j).ncnt ≠ 0)
    (h : bit_test (sw_get (leaf_restrict sws bfi) j).bmap n = true) :
    bit_test (sw_get sws bfi).bmap n = true := by
  rw [leaf_restrict, sw_get_map] at hnc h
  cases hj : sws[j]? with
  | none =>
    rw [hj] at hnc
    exact absurd rfl hnc
  | some e =>
    rw [hj] at hnc h
    simp only [Option.map_some', Option.getD_some] at hnc h
    by_cases hc : e.level ≠ 0 ∨ bit_super_set e.bmap (sw_get sws bfi).bmap = false
    · rw [if_pos hc] at hnc
      exact absurd rfl hnc
    · rw [if_neg hc] at h
      push_neg at hc
      have hsup : bit_super_set e.bmap (sw_get sws bfi).bmap = true := by
        cases hb : bit_super_set e.bmap (sw_get sws bfi).bmap with
        | false => exact absurd hb hc.2
        | true => rfl
      exact bit_super_set_elim e.bmap (sw_get sws bfi).bmap n hsup h

theorem sw_get_set_ne (sws : List sw_ent) (k : Nat) (e : sw_ent) (j : Nat)
    (h : j ≠ k) : sw_get (sws.set k e) j = sw_get sws j := by
  rw [sw_get, sw_get, List.getD_eq_getElem?_getD, List.getD_eq_getElem?_getD,
    List.getElem?_set_ne (fun hk => h hk.symm)]

theorem sw_get_set_self (sws : List sw_ent) (k : Nat) (e : sw_ent)
    (hk : k < sws.length) : sw_get (sws.set k e) k = e := by
  rw [sw_get, List.getD_eq_getElem?_getD, List.getElem?_set_self' , ]
  rw [List.getElem?_eq_getElem hk]
  rfl

theorem descend_nodes_res_sub (cl : Cluster) (cbOpt : Option (List Bool))
    (cpn : Nat) (B : List Bool) :
    ∀ (idxs : List Nat) (bm : List Bool) (nc : Int) (res : List Bool) (rn rc : Int),
      (∀ n, bit_test bm n = true → bit_test B n = true) →
      (∀ n, bit_test res n = true → bit_test B n = true) →
      ∀ n, bit_test (descend_nodes cl cbOpt cpn idxs bm nc res rn rc).2.2.1 n = true →
        bit_test B n = true := by
  intro idxs
  induction idxs with
  | nil => intro bm nc res rn rc _ hres n h; exact hres n h
  | cons i rest ih =>
    intro bm nc res rn rc hbm hres n h
    simp only [descend_nodes] at h
    by_cases h0 : bit_test bm i = false
    · rw [if_pos h0] at h
      exact ih bm nc res rn rc hbm hres n h
    · rw [if_neg h0] at h
      have hbm2 : ∀ m, bit_test (bit_clear bm i) m = true → bit_test B m = true :=
        fun m hm => hbm m (bit_test_clear_elim bm i m hm)
      have hBi : bit_test B i = true := hbm i (by
        cases hb : bit_test bm i with
        | false => exact absurd hb h0
        | true => rfl)
      by_cases hr : bit_test res i = true
      · rw [if_pos hr] at h
        exact ih _ _ res rn rc hbm2 hres n h
      · rw [if_neg hr] at h
        have hres2 : ∀ m, bit_test (bit_set res i) m = true → bit_test B m = true := by
          intro m hm
          rcases bit_test_set_elim res i m hm with h1 | h2
          · exact hres m h1
          · rw [h2]; exact hBi
        split at h
        · exact ih _ _ res rn rc hbm2 hres n h
        · by_cases hrn : rn - 1 ≤ 0
          · rw [if_pos hrn] at h
            exact hres2 n h
          · rw [if_neg hrn] at h
            exact ih _ _ _ _ _ hbm2 hres2 n h

theorem descent_loop_res_sub (cl : Cluster) (cbOpt : Option (List Bool))
    (hasCC : Bool) (cpn : Nat) (B : List Bool) :
    ∀ (fuel : Nat) (sws : List sw_ent) (res : List Bool) (rn rc : Int),
      (∀ j, (sw_get sws j).ncnt ≠ 0 →
        ∀ n, bit_test (sw_get sws j).bmap n = true → bit_test B n = true) →
      (∀ n, bit_test res n = true → bit_test B n = true) →
      ∀ n, bit_test (descent_loop cl cbOpt hasCC cpn fuel sws res rn rc).2.1 n = true →
        bit_test B n = true := by
  intro fuel
  induction fuel with
  | zero => intro sws res rn rc _ hres n h; exact hres n h
  | succ f ih =>
    intro sws res rn rc hsw hres n h
    rw [descent_loop] at h
    by_cases hrn : rn ≤ 0
    · rw [if_pos hrn] at h
      exact hres n h
    · rw [if_neg hrn] at h
      cases hp : pick_best_leaf sws rn rc hasCC with
      | none =>
        rw [hp] at h
        exact hres n h
      | some bfl =>
        rw [hp] at h
        dsimp only at h
        have hnc := pick_best_leaf_ncnt sws rn rc hasCC bfl hp
        have hbmB : ∀ m, bit_test (sw_get sws bfl).bmap m = true → bit_test B m = true :=
          hsw bfl hnc
        have hd := descend_nodes_res_sub cl cbOpt cpn B
          (match bit_ffs (sw_get sws bfl).bmap, bit_fls (sw_get sws bfl).bmap with
            | some f0, some last => List.range' f0 (last + 1 - f0)
            | _, _ => [])
          (sw_get sws bfl).bmap (sw_get sws bfl).ncnt res rn rc hbmB hres
        refine ih _ _ _ _ ?_ hd n h
        intro j hj m hm
        by_cases hjb : j = bfl
        · subst hjb
          by_cases hlt : j < sws.length
          · rw [sw_get_set_self sws j _ hlt] at hj
            exact absurd rfl hj
          · rw [List.set_eq_of_length_le (Nat.le_of_not_lt hlt)] at hj hm
            exact hsw j hj m hm
        · rw [sw_get_set_ne sws bfl _ j hjb] at hj hm
          exact hsw j hj m hm

theorem fini_core_loop_sub (cl : Cluster) (l : List Nat) (aggr : Bool) (R : List Bool) :
    ∀ (fuel : Nat) (avail sp cb exc : List Bool) (rem cpn n0 : Nat) (prev : Int),
      (∀ m, bit_test avail m = true → bit_test R m = true) →
      (∀ m, bit_test sp m = true → bit_test R m = true) →
      ∀ m, bit_test (fini_core_loop cl l aggr fuel avail sp cb exc rem cpn n0 prev).1 m = true →
        bit_test R m = true := by
  intro fuel
  induction fuel with
  | zero => intro avail sp cb exc rem cpn n0 prev _ hsp m h; exact hsp m h
  | succ f ih =>
    intro avail sp cb exc rem cpn n0 prev hav hsp m h
    rw [fini_core_loop] at h
    by_cases hr0 : rem = 0
    · rw [if_pos hr0] at h
      exact hsp m h
    · rw [if_neg hr0] at h
      have hstep : ∀ (inx : Nat) (av2 : List Bool) (pv : Int) (cp : Nat),
          (∀ k, bit_test av2 k = true → bit_test R k = true) →
          bit_test R inx = true →
          bit_test (fini_core_loop cl l aggr f (bit_clear av2 inx) sp cb exc rem cp n0 pv).1 m = true
            ∨ (∃ t1 t2 t3 cp2 pv2, bit_test (fini_core_loop cl l aggr f (bit_clear av2 inx)
                (bit_set sp inx) t1 t2 t3 cp2 (n0+1) pv2).1 m = true) →
          bit_test R m = true := by
        intro inx av2 pv cp hav2 hRinx hcase
        have hav3 : ∀ k, bit_test (bit_clear av2 inx) k = true → bit_test R k = true :=
          fun k hk => hav2 k (bit_test_clear_elim av2 inx k hk)
        rcases hcase with hc | ⟨t1, t2, t3, cp2, pv2, hc⟩
        · exact ih _ sp cb exc rem cp n0 pv hav3 hsp m hc
        · refine ih _ (bit_set sp inx) t1 t2 t3 cp2 (n0+1) pv2 hav3 ?_ m hc
          intro k hk
          rcases bit_test_set_elim sp inx k hk with h1 | h2
          · exact hsp k h1
          · rw [h2]; exact hRinx
      cases hffs : bit_ffs avail with
      | some inx =>
        rw [hffs] at h
        dsimp only at h
        have hRinx : bit_test R inx = true :=
          hav inx (bit_ffs_eq_some avail inx hffs).1
        refine hstep inx avail prev cpn hav hRinx ?_
        by_cases h1 : cr_node_num_cores cl inx < cpn
        · rw [if_pos h1] at h
          exact Or.inl h
        · rw [if_neg h1] at h
          by_cases h2 : (List.range (cr_node_num_cores cl inx)).countP
              (fun i => !bit_test exc (cr_get_coremap_offset cl inx + i)) < cpn
          · rw [if_pos h2] at h
            exact Or.inl h
          · rw [if_neg h2] at h
            exact Or.inr ⟨_, _, _, _, _, h⟩
      | none =>
        rw [hffs] at h
        by_cases hagg : aggr ∧ 0 < rem ∧ (rem : Int) ≠ prev
        · rw [if_pos hagg] at h
          dsimp only at h
          have hor : ∀ k, bit_test (bit_or avail sp) k = true → bit_test R k = true := by
            intro k hk
            rcases bit_test_or_elim avail sp k hk with h1 | h2
            · exact hav k h1
            · exact hsp k h2
          cases hffs2 : bit_ffs (bit_or avail sp) with
          | none =>
            rw [hffs2] at h
            exact hsp m h
          | some inx =>
            rw [hffs2] at h
            dsimp only at h
            have hRinx : bit_test R inx = true :=
              hor inx (bit_ffs_eq_some _ inx hffs2).1
            refine hstep inx (bit_or avail sp) ((rem : Int)) 1 hor hRinx ?_
            by_cases h1 : cr_node_num_cores cl inx < 1
            · rw [if_pos h1] at h
              exact Or.inl h
            · rw [if_neg h1] at h
              by_cases h2 : (List.range (cr_node_num_cores cl inx)).countP
                  (fun i => !bit_test exc (cr_get_coremap_offset cl inx + i)) < 1
              · rw [if_pos h2] at h
                exact Or.inl h
              · rw [if_neg h2] at h
                exact Or.inr ⟨_, _, _, _, _, h⟩
        · rw [if_neg hagg] at h
          dsimp only at h
          exact hsp m h

theorem topo_sw_init_bmap (cl : Cluster) (switches : List switch_record)
    (avail : List Bool) (cb : Option (List Bool)) (j : Nat) (hj : j < switches.length) :
    (sw_get (topo_sw_init cl switches avail cb) j).bmap
      = bit_and (switches.getD j ⟨0, []⟩).node_bitmap avail := by
  rw [topo_sw_init, sw_get, List.getD_eq_getElem?_getD, List.getElem?_map,
    List.getElem?_eq_getElem hj]
  rw [List.getD_eq_getElem?_getD, List.getElem?_eq_getElem hj]
  rfl

theorem topo_prune_res_shrink (cl : Cluster) (switches : List switch_record)
    (node_cnt : Nat) (core_cnt : Option (List Nat)) (avail : List Bool)
    (core_bitmap : Option (List Bool)) (j n : Nat)
    (h : bit_test (sw_get (topo_prune_res cl switches node_cnt core_cnt avail
      core_bitmap).1 j).bmap n = true) :
    bit_test (sw_get (topo_sw_init cl switches avail
      (topo_cb1 cl core_cnt avail core_bitmap)) j).bmap n = true := by
  rw [topo_prune_res.eq_def] at h
  cases core_cnt with
  | none => exact h
  | some lc =>
    exact topo_prune_shrink cl _ lc _ switches.length _ _ j n h

/-- C5: whenever the topology picker returns a node bitmap, every node set in
it lies in the availability-restricted node_bitmap of the best-fit switch
chosen in step 6. -/
theorem topo_resv_test_containment (cl : Cluster) (switches : List switch_record)
    (node_cnt : Nat) (core_cnt : Option (List Nat)) (avail : List Bool)
    (core_bitmap : Option (List Bool)) (bm : List Bool) (bfi : Nat)
    (hres : topo_resv_test cl switches node_cnt core_cnt avail core_bitmap = some bm)
    (hbf : topo_best_inx cl switches node_cnt core_cnt avail core_bitmap = some bfi) :
    ∀ n, bit_test bm n = true →
      bit_test (bit_and (switches.getD bfi ⟨0, []⟩).node_bitmap avail) n = true := by
  intro n hn
  have hlen := topo_prune_res_len cl switches node_cnt core_cnt avail core_bitmap
  have hbfi_lt : bfi < switches.length := by
    rw [topo_best_inx] at hbf
    have hlt := topo_best_fit_lt _ _ _ _ bfi hbf
    rw [hlen] at hlt
    exact hlt
  have hmain : ∀ m, bit_test (descent_loop cl
      (topo_prune_res cl switches node_cnt core_cnt avail core_bitmap).2
      core_cnt.isSome (topo_params cl node_cnt core_cnt).2.1 (switches.length + 1)
      (leaf_restrict (topo_prune_res cl switches node_cnt core_cnt avail core_bitmap).1 bfi)
      (bit_alloc avail.length) (node_cnt : Int) (topo_params cl node_cnt core_cnt).1).2.1 m = true →
      bit_test (sw_get (topo_prune_res cl switches node_cnt core_cnt avail
        core_bitmap).1 bfi).bmap m = true := by
    intro m hm
    refine descent_loop_res_sub cl _ _ _ _ _ _ _ _ _ ?_ ?_ m hm
    · intro j hj m0 hm0
      exact leaf_restrict_sub _ bfi j m0 hj hm0
    · intro m0 hm0
      rw [bit_test_alloc] at hm0
      cases hm0
  have hB : bit_test (sw_get (topo_prune_res cl switches node_cnt core_cnt avail
      core_bitmap).1 bfi).bmap n = true := by
    rw [topo_resv_test] at hres
    by_cases h0 : bit_set_count avail < node_cnt
    · rw [if_pos h0] at hres; cases hres
    · rw [if_neg h0] at hres
      dsimp only at hres
      rw [hbf] at hres
      dsimp only at hres
      by_cases hfail : 0 < (descent_loop cl
          (topo_prune_res cl switches node_cnt core_cnt avail core_bitmap).2
          core_cnt.isSome (topo_params cl node_cnt core_cnt).2.1 (switches.length + 1)
          (leaf_restrict (topo_prune_res cl switches node_cnt core_cnt avail core_bitmap).1 bfi)
          (bit_alloc avail.length) (node_cnt : Int) (topo_params cl node_cnt core_cnt).1).2.2.1
          ∨ 0 < (descent_loop cl
          (topo_prune_res cl switches node_cnt core_cnt avail core_bitmap).2
          core_cnt.isSome (topo_params cl node_cnt core_cnt).2.1 (switches.length + 1)
          (leaf_restrict (topo_prune_res cl switches node_cnt core_cnt avail core_bitmap).1 bfi)
          (bit_alloc avail.length) (node_cnt : Int) (topo_params cl node_cnt core_cnt).1).2.2.2
      · rw [if_pos hfail] at hres; cases hres
      · rw [if_neg hfail] at hres
        cases core_cnt with
        | none =>
          simp only [Option.some.injEq] at hres
          rw [← hres] at hn
          exact hmain n hn
        | some lc =>
          dsimp only at hres
          by_cases hfz : (fini_core_loop cl lc (topo_params cl node_cnt (some lc)).2.2
              (((topo_params cl node_cnt (some lc)).1.toNat + 2) *
                (avail.length + cl.cores.length + 2) + 2)
              (descent_loop cl
                (topo_prune_res cl switches node_cnt (some lc) avail core_bitmap).2
                (some lc).isSome (topo_params cl node_cnt (some lc)).2.1 (switches.length + 1)
                (leaf_restrict (topo_prune_res cl switches node_cnt (some lc) avail
                  core_bitmap).1 bfi)
                (bit_alloc avail.length) (node_cnt : Int)
                (topo_params cl node_cnt (some lc)).1).2.1
              (bit_alloc avail.length)
              (bit_alloc ((topo_prune_res cl switches node_cnt (some lc) avail
                core_bitmap).2.getD (bit_alloc (total_cores cl))).length)
              ((topo_prune_res cl switches node_cnt (some lc) avail
                core_bitmap).2.getD (bit_alloc (total_cores cl)))
              (topo_params cl node_cnt (some lc)).1.toNat
              (topo_params cl node_cnt (some lc)).2.1 0 (-1)).2.2 ≠ 0
          · rw [if_pos hfz] at hres; cases hres
          · rw [if_neg hfz] at hres
            simp only [Option.some.injEq] at hres
            rw [← hres] at hn
            refine hmain n (fini_core_loop_sub cl lc _ _ _ _ _ _ _ _ _ _ _
              (fun m hm => hm) ?_ n hn)
            intro m hm
            rw [bit_test_alloc] at hm
            cases hm
  have h2 := topo_prune_res_shrink cl switches node_cnt core_cnt avail core_bitmap bfi n hB
  rw [topo_sw_init_bmap cl switches avail _ bfi hbfi_lt] at h2
  exact h2

theorem topo_resv_test_containment_witness :
    topo_resv_test ⟨[1,1],[]⟩ [⟨0,[true,true]⟩] 1 none [true,true] none = some [true,false] ∧
    topo_best_inx ⟨[1,1],[]⟩ [⟨0,[true,true]⟩] 1 none [true,true] none = some 0 ∧
    bit_test (bit_and (([⟨0,[true,true]⟩] : List switch_record).getD 0 ⟨0,[]⟩).node_bitmap
      [true,true]) 0 = true :=
  ⟨by decide, by decide,
    topo_resv_test_containment ⟨[1,1],[]⟩ [⟨0,[true,true]⟩] 1 none [true,true] none
      [true,false] 0 (by decide) (by decide) 0 (by decide)⟩
